import Mathlib

/-!
# Verification of the json-store content-addressable document store

This file gives a shallow embedding, in Lean 4, of the core of the
`leapzhao/json-store` Go repository: the JSON canonicalizer and digest
(`utils/hash.go` and its unnamed sibling), the two storage-engine variants
(`database/postgres.go`, `database/mysql.go`), and the request handlers
(`handler/json_handler.go`).  Byte payloads are `List Nat` (each entry a
byte), machine integers are `Nat`/`Int`, the SQL tables are in-memory lists
of rows, and fallible Go functions return `Except`/`Option`.

The embedding is sequential: each SQL statement takes effect immediately
(transactions are modelled as immediately visible, commit always succeeds),
`uuid.New()` is modelled as a per-store counter drawn exactly at the program
points where the Go code calls it, and clock reads are explicit parameters.
Concurrency, network failures and driver-level scan conversions are out of
scope.
-/

set_option maxRecDepth 100000

namespace JsonStore

/-- A byte string: each element is a byte value `< 256` (not enforced by the
type; the parser and SHA-256 only ever produce bytes). -/
abbrev Bytes := List Nat

/-! ## SHA-256 (`crypto/sha256`)

A direct implementation of FIPS 180-4 over byte lists, with 32-bit words as
`Nat` reduced mod `2^32`.  `utils.CalculateHash` hex-encodes this digest. -/

namespace SHA256

def M32 : Nat := 4294967296

def mask32 (x : Nat) : Nat := x % M32

def add32 (a b : Nat) : Nat := (a + b) % M32

def rotr (n x : Nat) : Nat := ((x >>> n) ||| (x <<< (32 - n))) % M32

def not32 (x : Nat) : Nat := x ^^^ 4294967295

def bSig0 (x : Nat) : Nat := (rotr 2 x) ^^^ (rotr 13 x) ^^^ (rotr 22 x)

def bSig1 (x : Nat) : Nat := (rotr 6 x) ^^^ (rotr 11 x) ^^^ (rotr 25 x)

def sSig0 (x : Nat) : Nat := (rotr 7 x) ^^^ (rotr 18 x) ^^^ (x >>> 3)

def sSig1 (x : Nat) : Nat := (rotr 17 x) ^^^ (rotr 19 x) ^^^ (x >>> 10)

def ch (x y z : Nat) : Nat := (x &&& y) ^^^ (not32 x &&& z)

def maj (x y z : Nat) : Nat := (x &&& y) ^^^ (x &&& z) ^^^ (y &&& z)

def K : List Nat :=
  [1116352408, 1899447441, 3049323471, 3921009573, 961987163, 1508970993,
   2453635748, 2870763221, 3624381080, 310598401, 607225278, 1426881987,
   1925078388, 2162078206, 2614888103, 3248222580, 3835390401, 4022224774,
   264347078, 604807628, 770255983, 1249150122, 1555081692, 1996064986,
   2554220882, 2821834349, 2952996808, 3210313671, 3336571891, 3584528711,
   113926993, 338241895, 666307205, 773529912, 1294757372, 1396182291,
   1695183700, 1986661051, 2177026350, 2456956037, 2730485921, 2820302411,
   3259730800, 3345764771, 3516065817, 3600352804, 4094571909, 275423344,
   430227734, 506948616, 659060556, 883997877, 958139571, 1322822218,
   1537002063, 1747873779, 1955562222, 2024104815, 2227730452, 2361852424,
   2428436474, 2756734187, 3204031479, 3329325298]

def H0 : List Nat :=
  [1779033703, 3144134277, 1013904242, 2773480762,
   1359893119, 2600822924, 528734635, 1541459225]

/-- Big-endian word assembly of groups of four bytes. -/
def toWords : Bytes → List Nat
  | b0 :: b1 :: b2 :: b3 :: rest => (((b0 * 256 + b1) * 256 + b2) * 256 + b3) :: toWords rest
  | _ => []

/-- One message-schedule extension step: append `W[n]` computed from the last
16 words. -/
def stepW (w : List Nat) : List Nat :=
  let n := w.length
  w ++ [add32 (add32 (sSig1 (w.getD (n - 2) 0)) (w.getD (n - 7) 0))
              (add32 (sSig0 (w.getD (n - 15) 0)) (w.getD (n - 16) 0))]

def extendW : Nat → List Nat → List Nat
  | 0, w => w
  | n + 1, w => extendW n (stepW w)

/-- The eight working registers. -/
structure Regs where
  a : Nat
  b : Nat
  c : Nat
  d : Nat
  e : Nat
  f : Nat
  g : Nat
  h : Nat

def round (kt wt : Nat) (r : Regs) : Regs :=
  let t1 := add32 (add32 (add32 r.h (bSig1 r.e)) (add32 (ch r.e r.f r.g) kt)) wt
  let t2 := add32 (bSig0 r.a) (maj r.a r.b r.c)
  { a := add32 t1 t2, b := r.a, c := r.b, d := r.c,
    e := add32 r.d t1, f := r.e, g := r.f, h := r.g }

def rounds : List Nat → List Nat → Regs → Regs
  | k :: ks, w :: ws, r => rounds ks ws (round k w r)
  | _, _, r => r

def processBlock (h : List Nat) (block : Bytes) : List Nat :=
  let w := extendW 48 (toWords block)
  let r0 : Regs := { a := h.getD 0 0, b := h.getD 1 0, c := h.getD 2 0, d := h.getD 3 0,
                     e := h.getD 4 0, f := h.getD 5 0, g := h.getD 6 0, h := h.getD 7 0 }
  let r := rounds K w r0
  [add32 (h.getD 0 0) r.a, add32 (h.getD 1 0) r.b, add32 (h.getD 2 0) r.c,
   add32 (h.getD 3 0) r.d, add32 (h.getD 4 0) r.e, add32 (h.getD 5 0) r.f,
   add32 (h.getD 6 0) r.g, add32 (h.getD 7 0) r.h]

/-- Split into 64-byte blocks (fuel-based so that the kernel can evaluate it;
the fuel in `chunks` is always sufficient since every step consumes 64 bytes). -/
def chunksF : Nat → Bytes → List Bytes
  | 0, _ => []
  | _, [] => []
  | fuel + 1, l => l.take 64 :: chunksF fuel (l.drop 64)

def chunks (l : Bytes) : List Bytes := chunksF (l.length + 1) l

/-- Big-endian encoding of `n` into `k` bytes. -/
def beBytes : Nat → Nat → Bytes
  | 0, _ => []
  | k + 1, n => (n >>> (8 * k)) % 256 :: beBytes k n

/-- FIPS 180-4 padding: `0x80`, zeros, and the 64-bit big-endian bit length. -/
def pad (msg : Bytes) : Bytes :=
  let L := msg.length
  msg ++ 128 :: List.replicate ((64 + 55 - L % 64) % 64) 0 ++ beBytes 8 (8 * L)

/-- The SHA-256 digest of a byte string, as 32 bytes. -/
def sha256 (msg : Bytes) : Bytes :=
  ((chunks (pad msg)).foldl processBlock H0).foldr (fun w acc => beBytes 4 w ++ acc) []

def hexChar (n : Nat) : Char :=
  if n < 10 then Char.ofNat (48 + n) else Char.ofNat (87 + n)

/-- Lowercase hex encoding (`encoding/hex.EncodeToString`). -/
def hexEncode (bs : Bytes) : String :=
  String.mk (bs.foldr (fun b acc => hexChar (b / 16) :: hexChar (b % 16) :: acc) [])

end SHA256

/-- `hex.EncodeToString(sha256.Sum256(data))`, the fingerprint form used
throughout the repository. -/
def sha256hex (data : Bytes) : String := SHA256.hexEncode (SHA256.sha256 data)

/-! ## JSON values (`encoding/json` decoded form)

A decoded JSON value as Go's `json.Unmarshal` produces into `interface{}` /
`map[string]interface{}`.  Numbers are kept as exact decimals `m·10^e`
(Go converts to `float64`; the exact-decimal model is finer and the claims
here do not depend on `float64` rounding).  Object fields are stored with
later duplicate keys removed, last occurrence winning, matching Go map
assignment order.  Strings are decoded byte sequences (escapes processed,
`\uXXXX` encoded as UTF-8 with surrogate pairs combined and lone surrogates
replaced by U+FFFD); re-coercion of invalid raw UTF-8 to U+FFFD is not
modelled. -/

inductive Jv where
  | null
  | bool (b : Bool)
  | num (m : Int) (e : Int)
  | str (s : Bytes)
  | arr (elems : List Jv)
  | obj (fields : List (Bytes × Jv))
deriving Repr

/-! ### Parser (the `encoding/json` scanner and decoder)

`json.Valid` and `json.Unmarshal` accept exactly the same inputs (one JSON
value, optionally surrounded by whitespace); both are modelled by
`parseDocument`. -/

def isWs (c : Nat) : Bool := c == 32 || c == 9 || c == 10 || c == 13

def skipWs : Bytes → Bytes
  | [] => []
  | c :: rest => if isWs c then skipWs rest else c :: rest

def hexVal (c : Nat) : Option Nat :=
  if 48 ≤ c ∧ c ≤ 57 then some (c - 48)
  else if 97 ≤ c ∧ c ≤ 102 then some (c - 87)
  else if 65 ≤ c ∧ c ≤ 70 then some (c - 55)
  else none

def parseHex4 : Bytes → Option (Nat × Bytes)
  | a :: b :: c :: d :: rest => do
    let va ← hexVal a
    let vb ← hexVal b
    let vc ← hexVal c
    let vd ← hexVal d
    some (((va * 16 + vb) * 16 + vc) * 16 + vd, rest)
  | _ => none

/-- UTF-8 encoding of a code point (as `unicode/utf8.AppendRune`). -/
def utf8Encode (cp : Nat) : Bytes :=
  if cp < 128 then [cp]
  else if cp < 2048 then [192 + cp / 64, 128 + cp % 64]
  else if cp < 65536 then [224 + cp / 4096, 128 + cp / 64 % 64, 128 + cp % 64]
  else [240 + cp / 262144, 128 + cp / 4096 % 64, 128 + cp / 64 % 64, 128 + cp % 64]

/-- Parse a string body (input begins after the opening quote), returning the
decoded bytes and the remaining input after the closing quote.  Control
bytes below 0x20 are rejected, escapes are decoded, `\uXXXX` surrogate
pairs are combined and lone surrogates become U+FFFD, as in Go's
`unquote`. -/
def parseStringBody : Nat → Bytes → Option (Bytes × Bytes)
  | 0, _ => none
  | _ + 1, [] => none
  | _ + 1, 34 :: rest => some ([], rest)
  | fuel + 1, 92 :: esc =>
    match esc with
    | 34 :: r => (parseStringBody fuel r).map (fun (s, r') => (34 :: s, r'))
    | 92 :: r => (parseStringBody fuel r).map (fun (s, r') => (92 :: s, r'))
    | 47 :: r => (parseStringBody fuel r).map (fun (s, r') => (47 :: s, r'))
    | 98 :: r => (parseStringBody fuel r).map (fun (s, r') => (8 :: s, r'))
    | 102 :: r => (parseStringBody fuel r).map (fun (s, r') => (12 :: s, r'))
    | 110 :: r => (parseStringBody fuel r).map (fun (s, r') => (10 :: s, r'))
    | 114 :: r => (parseStringBody fuel r).map (fun (s, r') => (13 :: s, r'))
    | 116 :: r => (parseStringBody fuel r).map (fun (s, r') => (9 :: s, r'))
    | 117 :: r =>
      match parseHex4 r with
      | none => none
      | some (cp, r₁) =>
        if 55296 ≤ cp ∧ cp ≤ 56319 then
          -- high surrogate: look for a following \uXXXX low surrogate
          match r₁ with
          | 92 :: 117 :: r₂ =>
            match parseHex4 r₂ with
            | some (cp2, r₃) =>
              if 56320 ≤ cp2 ∧ cp2 ≤ 57343 then
                (parseStringBody fuel r₃).map
                  (fun (s, r') =>
                    (utf8Encode (65536 + (cp - 55296) * 1024 + (cp2 - 56320)) ++ s, r'))
              else
                (parseStringBody fuel r₁).map (fun (s, r') => (utf8Encode 65533 ++ s, r'))
            | none =>
              (parseStringBody fuel r₁).map (fun (s, r') => (utf8Encode 65533 ++ s, r'))
          | _ => (parseStringBody fuel r₁).map (fun (s, r') => (utf8Encode 65533 ++ s, r'))
        else if 56320 ≤ cp ∧ cp ≤ 57343 then
          -- lone low surrogate
          (parseStringBody fuel r₁).map (fun (s, r') => (utf8Encode 65533 ++ s, r'))
        else
          (parseStringBody fuel r₁).map (fun (s, r') => (utf8Encode cp ++ s, r'))
    | _ => none
  | fuel + 1, c :: rest =>
    if c < 32 then none
    else (parseStringBody fuel rest).map (fun (s, r') => (c :: s, r'))

def isDigit (c : Nat) : Bool := 48 ≤ c && c ≤ 57

/-- Longest leading digit run, as digit values. -/
def digitRun : Bytes → List Nat × Bytes
  | [] => ([], [])
  | c :: rest =>
    if isDigit c then
      let (ds, r) := digitRun rest
      ((c - 48) :: ds, r)
    else ([], c :: rest)

def natOfDigits (ds : List Nat) : Nat := ds.foldl (fun a d => a * 10 + d) 0

/-- Strip factors of ten from the mantissa (fuel-based so the kernel can
evaluate it; `m` itself always suffices as fuel). -/
def stripTensF : Nat → Nat → Nat × Nat
  | 0, m => (m, 0)
  | fuel + 1, m =>
    if m ≠ 0 ∧ m % 10 = 0 then
      let (m', k) := stripTensF fuel (m / 10)
      (m', k + 1)
    else (m, 0)

def stripTens (m : Nat) : Nat × Nat := stripTensF m m

/-- Build the normalized exact-decimal number value. -/
def mkNum (neg : Bool) (m : Nat) (e10 : Int) : Jv :=
  if m = 0 then .num 0 0
  else
    let (m', k) := stripTens m
    .num (if neg then -(m' : Int) else (m' : Int)) (e10 + k)

/-- The optional fraction `('.' digits+)?`: its digits (possibly none) and
the rest. -/
def parseFrac (s : Bytes) : Option (List Nat × Bytes) :=
  match s with
  | 46 :: r =>
    match digitRun r with
    | ([], _) => none
    | (ds, r') => some (ds, r')
  | _ => some ([], s)

/-- The optional exponent `([eE] [+-]? digits+)?`: its signed value and the
rest. -/
def parseExp (s : Bytes) : Option (Int × Bytes) :=
  match s with
  | 101 :: r | 69 :: r =>
    match r with
    | 43 :: r₂ =>
      match digitRun r₂ with
      | ([], _) => none
      | (ds, r₃) => some ((natOfDigits ds : Int), r₃)
    | 45 :: r₂ =>
      match digitRun r₂ with
      | ([], _) => none
      | (ds, r₃) => some (-(natOfDigits ds : Int), r₃)
    | _ =>
      match digitRun r with
      | ([], _) => none
      | (ds, r₃) => some ((natOfDigits ds : Int), r₃)
  | _ => some (0, s)

def parseFracExp (neg : Bool) (ip : Nat) (s : Bytes) : Option (Jv × Bytes) :=
  match parseFrac s with
  | none => none
  | some (fracDs, s₁) =>
    match parseExp s₁ with
    | none => none
    | some (expv, s₂) =>
      some (mkNum neg (ip * 10 ^ fracDs.length + natOfDigits fracDs)
              (expv - (fracDs.length : Int)), s₂)

/-- Parse a JSON number after an optional leading `-` (handled by the
caller): `('0' | [1-9][0-9]*) ('.' [0-9]+)? ([eE][+-]?[0-9]+)?`.  A digit
must not follow a leading zero. -/
def parseNumber (neg : Bool) (s : Bytes) : Option (Jv × Bytes) :=
  match s with
  | 48 :: rest =>
    match rest with
    | c :: _ => if isDigit c then none else parseFracExp neg 0 rest
    | [] => parseFracExp neg 0 []
  | c :: rest =>
    if 49 ≤ c ∧ c ≤ 57 then
      let (ds, r) := digitRun rest
      parseFracExp neg (natOfDigits ((c - 48) :: ds)) r
    else none
  | [] => none

/-- Go map assignment over a parsed field list: later duplicate keys
overwrite earlier ones.  The result keeps each key once, bound to its last
value (fuel-based; `fs.length` always suffices). -/
def lookupLast (k : Bytes) : List (Bytes × Jv) → Option Jv
  | [] => none
  | p :: rest =>
    match lookupLast k rest with
    | some w => some w
    | none => if p.1 == k then some p.2 else none

def dedupKeysF : Nat → List (Bytes × Jv) → List (Bytes × Jv)
  | 0, _ => []
  | _ + 1, [] => []
  | fuel + 1, (k, v) :: rest =>
    (k, (lookupLast k rest).getD v) :: dedupKeysF fuel (rest.filter (fun p => !(p.1 == k)))

def dedupKeys (fs : List (Bytes × Jv)) : List (Bytes × Jv) := dedupKeysF fs.length fs

mutual

/-- Parse one JSON value, leading whitespace allowed.  `fuel` bounds the
nesting recursion; `input.length + 1` always suffices since every nesting
level consumes at least one byte. -/
def parseVal : Nat → Bytes → Option (Jv × Bytes)
  | 0, _ => none
  | fuel + 1, s =>
    match skipWs s with
    | 110 :: 117 :: 108 :: 108 :: r => some (.null, r)
    | 116 :: 114 :: 117 :: 101 :: r => some (.bool true, r)
    | 102 :: 97 :: 108 :: 115 :: 101 :: r => some (.bool false, r)
    | 34 :: r => (parseStringBody (r.length + 1) r).map (fun (t, r') => (.str t, r'))
    | 91 :: r =>
      match skipWs r with
      | 93 :: r' => some (.arr [], r')
      | r' => (parseElems fuel r').map (fun (es, r'') => (.arr es, r''))
    | 123 :: r =>
      match skipWs r with
      | 125 :: r' => some (.obj [], r')
      | r' => (parseFields fuel r').map (fun (fs, r'') => (.obj (dedupKeys fs), r''))
    | 45 :: r => parseNumber true r
    | s' => parseNumber false s'

/-- One or more array elements followed by `]`. -/
def parseElems : Nat → Bytes → Option (List Jv × Bytes)
  | 0, _ => none
  | fuel + 1, s =>
    match parseVal fuel s with
    | none => none
    | some (v, r) =>
      match skipWs r with
      | 44 :: r' => (parseElems fuel r').map (fun (es, r'') => (v :: es, r''))
      | 93 :: r' => some ([v], r')
      | _ => none

/-- One or more `"key": value` fields followed by `}`. -/
def parseFields : Nat → Bytes → Option (List (Bytes × Jv) × Bytes)
  | 0, _ => none
  | fuel + 1, s =>
    match skipWs s with
    | 34 :: r =>
      match parseStringBody (r.length + 1) r with
      | none => none
      | some (k, r₁) =>
        match skipWs r₁ with
        | 58 :: r₂ =>
          match parseVal fuel r₂ with
          | none => none
          | some (v, r₃) =>
            match skipWs r₃ with
            | 44 :: r₄ => (parseFields fuel r₄).map (fun (fs, r₅) => ((k, v) :: fs, r₅))
            | 125 :: r₄ => some ([(k, v)], r₄)
            | _ => none
        | _ => none
    | _ => none

end

/-- Decode a whole document: one JSON value with optional surrounding
whitespace and nothing else.  This is the acceptance condition shared by
`json.Valid` and `json.Unmarshal`. -/
def parseDocument (data : Bytes) : Option Jv :=
  match parseVal (data.length + 1) data with
  | some (v, rest) => if skipWs rest = [] then some v else none
  | none => none

/-- `json.Valid(data)`. -/
def jsonValid (data : Bytes) : Bool := (parseDocument data).isSome

/-! ### Encoder (`json.Marshal` applied to decoded values)

Go's encoder emits object keys in sorted (byte-wise) order, no insignificant
whitespace, HTML-escaped strings, and shortest-form numbers.  It is modelled
as `canon` (recursively sort object fields) followed by the plain
structural encoder, which is exactly how `Marshal` behaves on values built
by `Unmarshal`.  (U+2028/U+2029 escaping of multi-byte sequences is not
modelled; no claim depends on it.) -/

def hexByte (n : Nat) : Nat := if n < 10 then 48 + n else 87 + n

/-- Escape one byte as Go's encoder does with `escapeHTML` on: quote,
backslash, `\n` `\r` `\t`, other control bytes as `\u00XX`, and `&` `<` `>`
as `\u00XX`. -/
def escapeByte (c : Nat) : Bytes :=
  if c == 34 then [92, 34]
  else if c == 92 then [92, 92]
  else if c == 10 then [92, 110]
  else if c == 13 then [92, 114]
  else if c == 9 then [92, 116]
  else if c < 32 || c == 38 || c == 60 || c == 62 then
    [92, 117, 48, 48, hexByte (c / 16), hexByte (c % 16)]
  else [c]

def encodeStr (s : Bytes) : Bytes :=
  34 :: (s.foldr (fun c acc => escapeByte c ++ acc) [] ++ [34])

def natDigitsF : Nat → Nat → Bytes
  | 0, _ => []
  | fuel + 1, n => if n < 10 then [48 + n] else natDigitsF fuel (n / 10) ++ [48 + n % 10]

/-- Decimal digits of `n`, as bytes (fuel-based; `n + 1` always suffices). -/
def natDigits (n : Nat) : Bytes := natDigitsF (n + 1) n

def zeros (k : Nat) : Bytes := List.replicate k 48

/-- Format the exact decimal `m·10^e` the way `encoding/json` formats a
`float64`: plain notation for magnitudes in `[1e-6, 1e21)`, exponent
notation outside, negative exponents without a leading zero. -/
def fmtNum (m e : Int) : Bytes :=
  if m = 0 then [48]
  else
    let sign : Bytes := if m < 0 then [45] else []
    let d := natDigits m.natAbs
    let p : Int := (d.length : Int) + e
    if 0 ≤ e ∧ p ≤ 21 then sign ++ d ++ zeros e.toNat
    else if e < 0 ∧ 0 < p ∧ p ≤ 21 then sign ++ d.take p.toNat ++ 46 :: d.drop p.toNat
    else if e < 0 ∧ -5 ≤ p ∧ p ≤ 0 then sign ++ 48 :: 46 :: (zeros (-p).toNat ++ d)
    else
      let exp := p - 1
      sign ++ d.take 1 ++ (if 1 < d.length then 46 :: d.drop 1 else []) ++
        101 :: (if exp < 0 then 45 :: natDigits exp.natAbs else 43 :: natDigits exp.natAbs)

/-- Byte-wise lexicographic order on keys, the order `sort.Strings` gives
Go map keys in `Marshal`. -/
def keyLe : Bytes → Bytes → Bool
  | [], _ => true
  | _ :: _, [] => false
  | a :: as, b :: bs => if a < b then true else if b < a then false else keyLe as bs

def insertKey (p : Bytes × Jv) : List (Bytes × Jv) → List (Bytes × Jv)
  | [] => [p]
  | q :: rest => if keyLe p.1 q.1 then p :: q :: rest else q :: insertKey p rest

def sortFields : List (Bytes × Jv) → List (Bytes × Jv)
  | [] => []
  | p :: rest => insertKey p (sortFields rest)

mutual

/-- Recursively sort object fields by key. -/
def canon : Jv → Jv
  | .arr es => .arr (canonList es)
  | .obj fs => .obj (sortFields (canonFields fs))
  | v => v

def canonList : List Jv → List Jv
  | [] => []
  | v :: rest => canon v :: canonList rest

def canonFields : List (Bytes × Jv) → List (Bytes × Jv)
  | [] => []
  | (k, v) :: rest => (k, canon v) :: canonFields rest

end

mutual

/-- Structural encoder; objects are emitted in stored field order, so it is
applied to `canon` output. -/
def encodePlain : Jv → Bytes
  | .null => [110, 117, 108, 108]
  | .bool true => [116, 114, 117, 101]
  | .bool false => [102, 97, 108, 115, 101]
  | .num m e => fmtNum m e
  | .str s => encodeStr s
  | .arr es => 91 :: (encodeList es ++ [93])
  | .obj fs => 123 :: (encodeFields fs ++ [125])

def encodeList : List Jv → Bytes
  | [] => []
  | [v] => encodePlain v
  | v :: rest => encodePlain v ++ 44 :: encodeList rest

def encodeFields : List (Bytes × Jv) → Bytes
  | [] => []
  | [(k, v)] => encodeStr k ++ 58 :: encodePlain v
  | (k, v) :: rest => encodeStr k ++ 58 :: encodePlain v ++ 44 :: encodeFields rest

end

/-- `json.Marshal` of a decoded value. -/
def marshal (v : Jv) : Bytes := encodePlain (canon v)

/-! ## The canonicalizer and digest (`src/utils/hash.go` and its
`src/unnamed/part_004` variant) -/

/-- `utils.NormalizeJSON` as in src/utils/hash.go: `json.Unmarshal` into a
`map[string]interface{}` followed by `json.Marshal`.  Unmarshalling into a
map succeeds only when the top-level value is an object — or the literal
`null`, which Go unmarshals into a nil map without error, and
`json.Marshal` of a nil map yields `null`. -/
def NormalizeJSON (data : Bytes) : Option Bytes :=
  match parseDocument data with
  | some (.obj fs) => some (marshal (.obj fs))
  | some .null => some (marshal .null)
  | _ => none

/-- `utils.CalculateHash` as in src/utils/hash.go: hash the normalized
form, falling back to the raw input bytes when normalization fails; the
returned error is always nil. -/
def CalculateHash (data : Bytes) : Except String String :=
  .ok (sha256hex ((NormalizeJSON data).getD data))

/-- `utils.NormalizeJSON` as in src/unnamed/part_004: `json.Unmarshal` into
`interface{}`, so every valid JSON document canonicalizes. -/
def NormalizeJSONAny (data : Bytes) : Option Bytes :=
  (parseDocument data).map marshal

/-- `utils.CalculateHash` as in src/unnamed/part_004. -/
def CalculateHashAny (data : Bytes) : Except String String :=
  .ok (sha256hex ((NormalizeJSONAny data).getD data))

/-- Modelled from the spec: the package-level `database.calculateHash`
helper called by both storage engines is not among the files under src/
(only its callers are).  Per the spec (§4.1–§4.2 and the §9 note that the
source fingerprints the raw bytes when canonicalization fails), it is the
hex SHA-256 digest of the canonical byte form with raw-byte fallback —
the value computed by `utils.CalculateHash` in src/utils/hash.go. -/
def calculateHash (data : Bytes) : String :=
  sha256hex ((NormalizeJSON data).getD data)

/-! ## The storage engines (`database/postgres.go`, `src/unnamed/part_001`,
`database/mysql.go`)

The `json_documents` table is a list of rows; `uuid.New()` is a per-store
counter consumed exactly where the Go code calls it; `CURRENT_TIMESTAMP`
is the explicit `now` parameter (nanoseconds).  Transactions are modelled
as immediately visible and always committing.  `metadata` is Go
`map[string]any`; a nil map and an empty map are observationally identified
and both modelled as `[]` (the column default is `'{}'` / `JSON_OBJECT()`). -/

structure Doc where
  id : Nat
  contentHash : String
  jsonData : Bytes
  size : Nat
  metadata : List (Bytes × Jv)
  createdAt : Nat
  updatedAt : Nat
deriving Repr

structure St where
  rows : List Doc
  nextId : Nat
deriving Repr

def emptySt : St := { rows := [], nextId := 0 }

inductive Err where
  /-- `"invalid JSON data"` -/
  | invalidDocument
  /-- `"document not found with id/hash: ..."` -/
  | notFound
  /-- `"no JSON data provided"` / `"no IDs provided"` -/
  | emptyBatch
  /-- `"batch size exceeds limit of 100"` -/
  | batchTooLarge
deriving Repr, DecidableEq

/-- First match in table order. -/
def findFirst {α} (p : α → Bool) : List α → Option α
  | [] => none
  | a :: l => if p a then some a else findFirst p l

/-- `SELECT ... WHERE content_hash = $1 LIMIT 1`. -/
def findByHash (st : St) (h : String) : Option Doc :=
  findFirst (fun r => r.contentHash == h) st.rows

/-- `SELECT ... WHERE id = $1`. -/
def findById (st : St) (id : Nat) : Option Doc :=
  findFirst (fun r => r.id == id) st.rows

/-- The row created by an `INSERT` with a fresh uuid at clock `now`; the
inserted `metadata` is the column default. -/
def freshDoc (st : St) (now : Nat) (data : Bytes) : Doc :=
  { id := st.nextId, contentHash := calculateHash data, jsonData := data,
    size := data.length, metadata := [], createdAt := now, updatedAt := now }

/-- Append a row and advance the uuid counter. -/
def insertDoc (st : St) (d : Doc) : St :=
  { rows := st.rows ++ [d], nextId := st.nextId + 1 }

/-- Draw (and discard) one uuid. -/
def bumpId (st : St) : St := { st with nextId := st.nextId + 1 }

/-- All row ids are below the uuid counter; every reachable store state
satisfies this, and fresh inserts preserve it. -/
def IdsBelow (st : St) : Prop := ∀ r ∈ st.rows, r.id < st.nextId

/-- `PostgresStore.StoreJSON`: validate, fingerprint, probe by hash, and
insert with `RETURNING` on a miss.  The `RETURNING` list omits `metadata`,
so the returned document's metadata is the Go zero value (`[]` here, which
also matches the column default `'{}'`). -/
def pgStoreJSON (st : St) (now : Nat) (jsonData : Bytes) : Except Err Doc × St :=
  if !jsonValid jsonData then (.error .invalidDocument, st)
  else
    match findByHash st (calculateHash jsonData) with
    | some existing => (.ok existing, st)
    | none =>
      let doc := freshDoc st now jsonData
      (.ok doc, insertDoc st doc)

/-- `PostgresStore.GetJSONByID`. -/
def pgGetJSONByID (st : St) (id : Nat) : Except Err Doc :=
  match findById st id with
  | some doc => .ok doc
  | none => .error .notFound

/-- `PostgresStore.GetJSONByHash`. -/
def pgGetJSONByHash (st : St) (h : String) : Except Err Doc :=
  match findByHash st h with
  | some doc => .ok doc
  | none => .error .notFound

/-- The item loop of `PostgresStore.StoreJSONBatch` (src/unnamed/part_001):
the whole loop runs inside one transaction, so `st` is the transaction's
view (the rows committed at batch start plus this transaction's own
inserts) while `committed` is the snapshot any *other* connection sees —
nothing commits before the loop ends.  Per valid item the code draws a
uuid *before* the existence probe; the probe (`tx.QueryRowContext`) runs
on the transaction, but the full-row fetch of the duplicate branch calls
`s.GetJSONByID` (part_001:224), a pooled connection outside the
transaction, which only sees `committed`.  A probe hit on a row this
transaction itself inserted therefore misses on the fetch, control falls
through to the `INSERT`, and that insert violates `UNIQUE(content_hash)`
— which in PostgreSQL puts the whole transaction in the aborted state
(`ab`): every later statement of the loop fails until rollback, so later
items are skipped with only their uuid consumed. -/
def pgStoreBatchGo (committed : List Doc) (now : Nat) :
    List Bytes → St → Bool → List Doc × St × Bool
  | [], st, ab => ([], st, ab)
  | item :: rest, st, ab =>
    if !jsonValid item then pgStoreBatchGo committed now rest st ab
    else
      -- `id := uuid.New().String()` is drawn here, before the probe
      if ab then pgStoreBatchGo committed now rest (bumpId st) true
      else
        match findByHash st (calculateHash item) with
        | some existing =>
          match findFirst (fun r => r.id == existing.id) committed with
          | some d =>
            let (docs, st', ab') := pgStoreBatchGo committed now rest (bumpId st) ab
            (d :: docs, st', ab')
          | none =>
            -- within-batch duplicate: the out-of-transaction fetch misses
            -- and the fall-through INSERT aborts the transaction
            pgStoreBatchGo committed now rest (bumpId st) true
        | none =>
          let doc := freshDoc st now item
          let (docs, st', ab') := pgStoreBatchGo committed now rest (insertDoc st doc) ab
          (doc :: docs, st', ab')

/-- `PostgresStore.StoreJSONBatch`.  `COMMIT` of an aborted transaction is
executed by the server as a rollback with a non-error `ROLLBACK` result
tag, which lib/pq reports as success: the accumulated results are returned
with a nil error but every insert of the transaction is lost (the uuid
counter is process-global and keeps its advance). -/
def pgStoreJSONBatch (st : St) (now : Nat) (items : List Bytes) :
    Except Err (List Doc) × St :=
  if items.length = 0 then (.error .emptyBatch, st)
  else if items.length > 100 then (.error .batchTooLarge, st)
  else
    let r := pgStoreBatchGo st.rows now items st false
    if r.2.2 then (.ok r.1, { rows := st.rows, nextId := r.2.1.nextId })
    else (.ok r.1, r.2.1)

/-- Stable insertion for `ORDER BY created_at DESC` (ties keep store
order). -/
def insertByCreatedDesc (d : Doc) : List Doc → List Doc
  | [] => [d]
  | e :: rest => if d.createdAt > e.createdAt then d :: e :: rest
                 else e :: insertByCreatedDesc d rest

def sortByCreatedDesc : List Doc → List Doc
  | [] => []
  | d :: rest => insertByCreatedDesc d (sortByCreatedDesc rest)

/-- `PostgresStore.GetJSONBatch` (src/unnamed/part_001): bounded id list,
`WHERE id IN (...) ORDER BY created_at DESC`. -/
def pgGetJSONBatch (st : St) (ids : List Nat) : Except Err (List Doc) :=
  if ids.length = 0 then .error .emptyBatch
  else if ids.length > 100 then .error .batchTooLarge
  else .ok (sortByCreatedDesc (st.rows.filter (fun r => ids.contains r.id)))

/-- `MySQLStore.StoreJSON`: validate, fingerprint, probe by hash; on a miss
`INSERT ... ON DUPLICATE KEY UPDATE` (no duplicate is possible here, so the
row is created and `RowsAffected = 1`) followed by `GetJSONByID`. -/
def myStoreJSON (st : St) (now : Nat) (jsonData : Bytes) : Except Err Doc × St :=
  if !jsonValid jsonData then (.error .invalidDocument, st)
  else
    let hash := calculateHash jsonData
    match findByHash st hash with
    | some existing => (.ok existing, st)
    | none =>
      let doc := freshDoc st now jsonData
      let st' := insertDoc st doc
      match findById st' doc.id with
      | some d => (.ok d, st')
      | none => (.error .notFound, st')

/-- `MySQLStore.GetJSONByID` (scans `metadata` through `sql.NullString` and
unmarshals it; observationally the same row). -/
def myGetJSONByID (st : St) (id : Nat) : Except Err Doc :=
  match findById st id with
  | some doc => .ok doc
  | none => .error .notFound

/-- `MySQLStore.GetJSONByHash`. -/
def myGetJSONByHash (st : St) (h : String) : Except Err Doc :=
  match findByHash st h with
  | some doc => .ok doc
  | none => .error .notFound

/-- The item loop of `MySQLStore.StoreJSONBatch`: as in the PostgreSQL
variant, `st` is the open transaction's view and `committed` the snapshot
seen by any other connection.  The duplicate probe (`tx.QueryRowContext`,
mysql.go:231) runs on the transaction, but both full-row fetches call
`s.GetJSONByID` on the pool — the duplicate branch at mysql.go:238 and
the post-insert fetch at mysql.go:259 — so they only see `committed`.
A freshly inserted item's fetch therefore misses and the item is dropped
from the results (`continue`), though its row is still committed at the
end.  A probe hit on a row inserted earlier in this same batch also
misses its fetch; control falls through to the `INSERT`, which fails with
a `UNIQUE(content_hash)` violation — in MySQL a statement-level error
only, so the loop just consumes the uuid and continues. -/
def myStoreBatchGo (committed : List Doc) (now : Nat) :
    List Bytes → St → List Doc × St
  | [], st => ([], st)
  | item :: rest, st =>
    if !jsonValid item then myStoreBatchGo committed now rest st
    else
      let hash := calculateHash item
      match findByHash st hash with
      | some existing =>
        match findFirst (fun r => r.id == existing.id) committed with
        | some d =>
          let (docs, st') := myStoreBatchGo committed now rest st
          (d :: docs, st')
        | none => myStoreBatchGo committed now rest (bumpId st)
      | none =>
        let doc := freshDoc st now item
        let st₂ := insertDoc st doc
        match findFirst (fun r => r.id == doc.id) committed with
        | some d =>
          let (docs, st') := myStoreBatchGo committed now rest st₂
          (d :: docs, st')
        | none => myStoreBatchGo committed now rest st₂

/-- `MySQLStore.StoreJSONBatch`: the commit at mysql.go:269 succeeds and
makes every insert of the loop durable. -/
def myStoreJSONBatch (st : St) (now : Nat) (items : List Bytes) :
    Except Err (List Doc) × St :=
  if items.length = 0 then (.error .emptyBatch, st)
  else if items.length > 100 then (.error .batchTooLarge, st)
  else
    let (docs, st') := myStoreBatchGo st.rows now items st
    (.ok docs, st')

/-- `MySQLStore.GetJSONBatch`: same bounds and query shape as the
PostgreSQL variant (`WHERE id IN (...) ORDER BY created_at DESC`). -/
def myGetJSONBatch (st : St) (ids : List Nat) : Except Err (List Doc) :=
  if ids.length = 0 then .error .emptyBatch
  else if ids.length > 100 then .error .batchTooLarge
  else .ok (sortByCreatedDesc (st.rows.filter (fun r => ids.contains r.id)))

/-! ### Logical equality of decoded values

`jequivB` decides "decode to the same logical JSON value": equal scalars,
pointwise-equivalent arrays, and objects equal as key→value maps
irrespective of field order.  `wf` states the well-formedness invariant the
parser guarantees: object keys are duplicate-free at every level. -/

def keysFresh (k : Bytes) (fs : List (Bytes × Jv)) : Bool :=
  fs.all (fun p => !(p.1 == k))

def noDupKeys : List (Bytes × Jv) → Bool
  | [] => true
  | (k, _) :: rest => keysFresh k rest && noDupKeys rest

mutual

def wf : Jv → Bool
  | .arr es => wfList es
  | .obj fs => noDupKeys fs && wfFields fs
  | _ => true

def wfList : List Jv → Bool
  | [] => true
  | v :: rest => wf v && wfList rest

def wfFields : List (Bytes × Jv) → Bool
  | [] => true
  | (_, v) :: rest => wf v && wfFields rest

end

/-- First binding of key `k` (unique when keys are duplicate-free). -/
def lookupKey (k : Bytes) : List (Bytes × Jv) → Option Jv
  | [] => none
  | (k', v) :: rest => if k' == k then some v else lookupKey k rest

mutual

def jequivB : Jv → Jv → Bool
  | .null, .null => true
  | .bool a, .bool b => a == b
  | .num m e, .num m' e' => m == m' && e == e'
  | .str s, .str t => s == t
  | .arr xs, .arr ys => jequivList xs ys
  | .obj ps, .obj qs => ps.length == qs.length && jequivPairs ps qs
  | _, _ => false

def jequivList : List Jv → List Jv → Bool
  | [], [] => true
  | x :: xs, y :: ys => jequivB x y && jequivList xs ys
  | _, _ => false

def jequivPairs : List (Bytes × Jv) → List (Bytes × Jv) → Bool
  | [], _ => true
  | (k, v) :: ps, qs =>
    (match lookupKey k qs with
     | some w => jequivB v w
     | none => false) && jequivPairs ps qs

end

mutual

def sizeJv : Jv → Nat
  | .arr es => 1 + sizeList es
  | .obj fs => 1 + sizeFields fs
  | _ => 1

def sizeList : List Jv → Nat
  | [] => 0
  | v :: rest => sizeJv v + sizeList rest

def sizeFields : List (Bytes × Jv) → Nat
  | [] => 0
  | (_, v) :: rest => sizeJv v + sizeFields rest

end

/-- Field order by key, the order `sortFields` establishes. -/
def fieldLe (p q : Bytes × Jv) : Prop := keyLe p.1 q.1 = true

/-- Strict field order by key. -/
def fieldLt (p q : Bytes × Jv) : Prop := keyLe p.1 q.1 = true ∧ p.1 ≠ q.1

/-! ## The request handlers (`handler/json_handler.go`)

Request binding and the `validator` checks are modelled only as the length
bounds they impose; `tStore` is the clock when the engine stores, `tResp`
the clock when the response is built (`time.Since` reads). -/

inductive HErr where
  /-- 500 `STORAGE_ERROR` -/
  | storageError
  /-- 400 `VALIDATION_ERROR` (`validate:"required,min=1,max=100"`) -/
  | validationError
  /-- 400 `INVALID_JSON`: `"Document at index %d contains invalid JSON"` -/
  | invalidJsonAt (i : Nat)
  /-- 500 `BATCH_STORAGE_ERROR` -/
  | batchStorageError
  /-- 400 `MISSING_IDS` -/
  | missingIds
  /-- 400 `TOO_MANY_IDS` -/
  | tooManyIds
  /-- 500 `BATCH_GET_ERROR` -/
  | batchGetError
deriving Repr, DecidableEq

def getStorageMessage (isNew : Bool) : String :=
  if isNew then "JSON document stored successfully"
  else "JSON document already exists, returning existing ID"

structure StoreResponse where
  id : Nat
  isNew : Bool
  createdAt : Nat
  message : String
deriving Repr, DecidableEq

/-- `isNew := time.Since(doc.CreatedAt) < time.Second` and the response
fields built from it (nanoseconds; `time.Second = 1e9`). -/
def mkStoreResponse (tResp : Nat) (doc : Doc) : StoreResponse :=
  let isNew := decide (tResp - doc.createdAt < 1000000000)
  { id := doc.id, isNew := isNew, createdAt := doc.createdAt,
    message := getStorageMessage isNew }

/-- `JSONHandler.StoreJSON` over the configured engine (the two engines
agree; the PostgreSQL model is used). -/
def handlerStoreJSON (st : St) (tStore tResp : Nat) (jsonData : Bytes) :
    Except HErr StoreResponse × St :=
  match pgStoreJSON st tStore jsonData with
  | (.error _, st') => (.error .storageError, st')
  | (.ok doc, st') => (.ok (mkStoreResponse tResp doc), st')

structure BatchFailure where
  index : Nat
  error : String
  message : String
deriving Repr, DecidableEq

structure StoreBatchResponse where
  successCount : Nat
  failureCount : Nat
  totalCount : Nat
  results : List StoreResponse
  failures : List BatchFailure
deriving Repr

/-- The handler's pre-validation loop (`for i, docReq := range
req.Documents`): the first index holding invalid JSON, if any. -/
def firstInvalidFrom : List Bytes → Nat → Option Nat
  | [], _ => none
  | d :: rest, i => if !jsonValid d then some i else firstInvalidFrom rest (i + 1)

def firstInvalidIdx (docs : List Bytes) : Option Nat := firstInvalidFrom docs 0

/-- `JSONHandler.StoreJSONBatch`: binding/validator bounds, a pre-check
that 400-rejects the whole batch at the first invalid item, the engine
batch call, and response assembly.  When items are dropped by the engine,
`failure_count = total - len(results)` and a single failure entry is
emitted whose index is `success_count`. -/
def handlerStoreJSONBatch (st : St) (tStore tResp : Nat) (docs : List Bytes) :
    Except HErr StoreBatchResponse × St :=
  if docs.length < 1 ∨ docs.length > 100 then (.error .validationError, st)
  else
    match firstInvalidIdx docs with
    | some i => (.error (.invalidJsonAt i), st)
    | none =>
      match pgStoreJSONBatch st tStore docs with
      | (.error _, st') => (.error .batchStorageError, st')
      | (.ok results, st') =>
        let successCount := results.length
        let failureCount := docs.length - successCount
        (.ok { successCount := successCount, failureCount := failureCount,
               totalCount := docs.length,
               results := results.map (mkStoreResponse tResp),
               failures :=
                 if failureCount > 0 then
                   [{ index := successCount, error := "PROCESSING_ERROR",
                      message := "Some documents failed to process" }]
                 else [] }, st')

structure GetBatchResponse where
  successCount : Nat
  failureCount : Nat
  documents : List Doc
  failures : List BatchFailure
deriving Repr

/-- The handler's not-found loop (`for i, id := range req.IDs` over the
`foundIDs` set): a `NOT_FOUND` entry for each requested index whose id is
not among the returned documents. -/
def notFoundFailures (docs : List Doc) : List Nat → Nat → List BatchFailure
  | [], _ => []
  | id :: rest, i =>
    if docs.any (fun d => d.id == id) then notFoundFailures docs rest (i + 1)
    else { index := i, error := "NOT_FOUND", message := "Document not found" }
           :: notFoundFailures docs rest (i + 1)

/-- `JSONHandler.GetJSONBatch`: id-list bounds, the engine batch query,
and, when `failure_count > 0`, the not-found loop. -/
def handlerGetJSONBatch (st : St) (ids : List Nat) : Except HErr GetBatchResponse :=
  if ids.length = 0 then .error .missingIds
  else if ids.length > 100 then .error .tooManyIds
  else
    match pgGetJSONBatch st ids with
    | .error _ => .error .batchGetError
    | .ok docs =>
      let failureCount := ids.length - docs.length
      .ok { successCount := docs.length, failureCount := failureCount,
            documents := docs,
            failures := if failureCount > 0 then notFoundFailures docs ids 0 else [] }

/-! ## Backend parity harness

The shared storage contract is exercised as sequences of operations
interpreted over an engine record.  Because identifiers are
backend-generated (`uuid.New()`), caller-supplied ids are creation indices
— `getById k` asks for the k-th created document of that run, an
out-of-range index resolving to an identifier no row carries — and the
observation of a returned document replaces its id by its creation index.
Clock inputs are shared between runs. -/

structure Engine where
  storeOne : St → Nat → Bytes → Except Err Doc × St
  storeBatch : St → Nat → List Bytes → Except Err (List Doc) × St
  getById : St → Nat → Except Err Doc
  getByHash : St → String → Except Err Doc
  getBatch : St → List Nat → Except Err (List Doc)

def pgEngine : Engine :=
  { storeOne := pgStoreJSON, storeBatch := pgStoreJSONBatch,
    getById := pgGetJSONByID, getByHash := pgGetJSONByHash,
    getBatch := pgGetJSONBatch }

def myEngine : Engine :=
  { storeOne := myStoreJSON, storeBatch := myStoreJSONBatch,
    getById := myGetJSONByID, getByHash := myGetJSONByHash,
    getBatch := myGetJSONBatch }

inductive Op where
  | storeOne (now : Nat) (data : Bytes)
  | storeBatch (now : Nat) (items : List Bytes)
  | getById (k : Nat)
  | getByHash (h : String)
  | getBatch (ks : List Nat)

/-- Operations of the shared contract other than `StoreJSONBatch` (whose
out-of-transaction fetches break parity). -/
def batchFree : Op → Bool
  | .storeBatch _ _ => false
  | _ => true

/-- Resolve a creation index to this run's concrete identifier (rows are
append-only, so row order is creation order); out-of-range indices map to
identifiers never assigned, since every assigned id is below the
counter. -/
def resolveId (st : St) (k : Nat) : Nat :=
  match st.rows[k]? with
  | some r => r.id
  | none => st.nextId + k

/-- A returned document as observed externally: the backend-generated id is
replaced by the document's creation index. -/
structure ObsDoc where
  idx : Nat
  contentHash : String
  jsonData : Bytes
  size : Nat
  metadata : List (Bytes × Jv)
  createdAt : Nat
  updatedAt : Nat

def obsIdx (st : St) (id : Nat) : Nat := st.rows.findIdx (fun r => r.id == id)

def obsDoc (st : St) (d : Doc) : ObsDoc :=
  { idx := obsIdx st d.id, contentHash := d.contentHash,
    jsonData := d.jsonData, size := d.size, metadata := d.metadata,
    createdAt := d.createdAt, updatedAt := d.updatedAt }

inductive Out where
  | err (e : Err)
  | doc (d : ObsDoc)
  | docs (l : List ObsDoc)

def stepOp (E : Engine) (st : St) : Op → Out × St
  | .storeOne now data =>
    match E.storeOne st now data with
    | (.ok d, st') => (.doc (obsDoc st' d), st')
    | (.error e, st') => (.err e, st')
  | .storeBatch now items =>
    match E.storeBatch st now items with
    | (.ok ds, st') => (.docs (ds.map (obsDoc st')), st')
    | (.error e, st') => (.err e, st')
  | .getById k =>
    match E.getById st (resolveId st k) with
    | .ok d => (.doc (obsDoc st d), st)
    | .error e => (.err e, st)
  | .getByHash hs =>
    match E.getByHash st hs with
    | .ok d => (.doc (obsDoc st d), st)
    | .error e => (.err e, st)
  | .getBatch ks =>
    match E.getBatch st (ks.map (resolveId st)) with
    | .ok ds => (.docs (ds.map (obsDoc st)), st)
    | .error e => (.err e, st)

def runOps (E : Engine) : List Op → St → List Out
  | [], _ => []
  | op :: rest, st =>
    let r := stepOp E st op
    r.1 :: runOps E rest r.2

/-- Rows equal in every field except the backend-generated identifier. -/
def DocEqNoId (a b : Doc) : Prop :=
  a.contentHash = b.contentHash ∧ a.jsonData = b.jsonData ∧ a.size = b.size ∧
  a.metadata = b.metadata ∧ a.createdAt = b.createdAt ∧ a.updatedAt = b.updatedAt

def StRel (p q : St) : Prop := List.Forall₂ DocEqNoId p.rows q.rows

/-- Corresponding rows: equal modulo id, and stored at the same creation
index in the two runs. -/
def Corr (p q : St) (a b : Doc) : Prop :=
  DocEqNoId a b ∧ ∃ j : Nat, p.rows[j]? = some a ∧ q.rows[j]? = some b

/-- Distinct assigned ids, all below the counter. -/
def IdsOk (st : St) : Prop :=
  (st.rows.map (fun r => r.id)).Nodup ∧ ∀ r ∈ st.rows, r.id < st.nextId

def EngInv (p q : St) : Prop := StRel p q ∧ IdsOk p ∧ IdsOk q

/-! ## Supporting lemmas -/

theorem findFirst_append_of_none {α} (p : α → Bool) (l₁ l₂ : List α)
    (h : findFirst p l₁ = none) : findFirst p (l₁ ++ l₂) = findFirst p l₂ := by
  induction l₁ with
  | nil => rfl
  | cons a l ih =>
    cases hpa : p a with
    | true => simp [findFirst, hpa] at h
    | false =>
      simp only [findFirst, hpa, if_false, Bool.false_eq_true, List.cons_append] at h ⊢
      exact ih h

theorem findFirst_eq_none {α} (p : α → Bool) (l : List α)
    (h : ∀ a ∈ l, p a = false) : findFirst p l = none := by
  induction l with
  | nil => rfl
  | cons a l ih =>
    simp only [findFirst, h a (List.mem_cons_self a l), if_false, Bool.false_eq_true]
    exact ih fun b hb => h b (List.mem_cons_of_mem a hb)

/-- FIPS 180-4 test vector: the empty message. -/
theorem sha256_empty_vector : sha256hex [] =
    "e3b0c44298fc1c149afbf4c8996fb92427ae41e4649b934ca495991b7852b855" := by decide

/-- FIPS 180-4 test vector: `"abc"`. -/
theorem sha256_abc_vector : sha256hex [97, 98, 99] =
    "ba7816bf8f01cfea414140de5dae2223b00361a396177a9cb410ff61f20015ad" := by decide

theorem idsBelow_empty : IdsBelow emptySt := by
  intro r hr
  simp [emptySt] at hr

/-! ## Claims -/

/-- **C1** (Store idempotence): for every valid JSON payload, calling
`StoreJSON` twice in sequence succeeds both times and returns the very same
document — same identifier, same content fingerprint, same `created_at` —
with the store state unchanged by the second call (no second row, no
error), in both the PostgreSQL and the MySQL backend models. -/
theorem storeJSON_idempotent (st : St) (t₁ t₂ : Nat) (data : Bytes)
    (hv : jsonValid data = true) (hids : IdsBelow st) :
    (∃ d st₁, pgStoreJSON st t₁ data = (.ok d, st₁) ∧
              pgStoreJSON st₁ t₂ data = (.ok d, st₁)) ∧
    (∃ d st₁, myStoreJSON st t₁ data = (.ok d, st₁) ∧
              myStoreJSON st₁ t₂ data = (.ok d, st₁)) := by
  have hfind₂ : ∀ hfind : findByHash st (calculateHash data) = none,
      findByHash (insertDoc st (freshDoc st t₁ data)) (calculateHash data)
        = some (freshDoc st t₁ data) := by
    intro hfind
    unfold findByHash at hfind
    unfold findByHash insertDoc
    rw [findFirst_append_of_none _ _ _ hfind]
    simp [findFirst, freshDoc]
  constructor
  · cases hfind : findByHash st (calculateHash data) with
    | some existing =>
      exact ⟨existing, st, by simp [pgStoreJSON, hv, hfind],
             by simp [pgStoreJSON, hv, hfind]⟩
    | none =>
      refine ⟨freshDoc st t₁ data, insertDoc st (freshDoc st t₁ data),
        by simp [pgStoreJSON, hv, hfind], ?_⟩
      simp [pgStoreJSON, hv, hfind₂ hfind]
  · cases hfind : findByHash st (calculateHash data) with
    | some existing =>
      exact ⟨existing, st, by simp [myStoreJSON, hv, hfind],
             by simp [myStoreJSON, hv, hfind]⟩
    | none =>
      have hfindid : findById (insertDoc st (freshDoc st t₁ data))
          (freshDoc st t₁ data).id = some (freshDoc st t₁ data) := by
        unfold findById insertDoc
        have hnone : findFirst (fun r => r.id == (freshDoc st t₁ data).id) st.rows
            = none := by
          apply findFirst_eq_none
          intro r hr
          simp only [freshDoc, beq_eq_false_iff_ne, ne_eq]
          exact Nat.ne_of_lt (hids r hr)
        rw [findFirst_append_of_none _ _ _ hnone]
        simp [findFirst]
      refine ⟨freshDoc st t₁ data, insertDoc st (freshDoc st t₁ data), ?_, ?_⟩
      · simp [myStoreJSON, hv, hfind, hfindid]
      · simp [myStoreJSON, hv, hfind₂ hfind]

theorem storeJSON_idempotent_witness :
    jsonValid [123, 125] = true ∧ IdsBelow emptySt ∧
    ((∃ d st₁, pgStoreJSON emptySt 0 [123, 125] = (.ok d, st₁) ∧
               pgStoreJSON st₁ 7 [123, 125] = (.ok d, st₁)) ∧
     (∃ d st₁, myStoreJSON emptySt 0 [123, 125] = (.ok d, st₁) ∧
               myStoreJSON st₁ 7 [123, 125] = (.ok d, st₁))) :=
  ⟨by rfl, idsBelow_empty,
   storeJSON_idempotent emptySt 0 7 [123, 125] (by rfl) idsBelow_empty⟩

/-- **C3** (Invalid input rejection with atomicity): for every byte
sequence that is not well-formed JSON — including the empty byte sequence —
`StoreJSON` fails with the invalid-document error and leaves the store
state untouched, in both backends. -/
theorem storeJSON_rejects_invalid (st : St) (now : Nat) (data : Bytes)
    (h : jsonValid data = false) :
    pgStoreJSON st now data = (.error .invalidDocument, st) ∧
    myStoreJSON st now data = (.error .invalidDocument, st) := by
  constructor <;> simp [pgStoreJSON, myStoreJSON, h]

theorem storeJSON_rejects_invalid_witness :
    jsonValid [] = false ∧
    (pgStoreJSON emptySt 3 [] = (.error .invalidDocument, emptySt) ∧
     myStoreJSON emptySt 3 [] = (.error .invalidDocument, emptySt)) :=
  ⟨by rfl, storeJSON_rejects_invalid emptySt 3 [] (by rfl)⟩

/-- **C5 counterexample**: fingerprinting the malformed input
`"{not json"` silently succeeds — `CalculateHash` returns a nil error and
the SHA-256 of the raw bytes — contradicting the claim that invalid JSON is
rejected before any fingerprint is derived and that no fingerprint is ever
computed over the raw bytes as a fallback. -/
theorem calculateHash_succeeds_on_invalid :
    jsonValid [123, 110, 111, 116, 32, 106, 115, 111, 110] = false ∧
    CalculateHash [123, 110, 111, 116, 32, 106, 115, 111, 110] =
      .ok (sha256hex [123, 110, 111, 116, 32, 106, 115, 111, 110]) := by
  constructor <;> rfl

/-- **C5 amended**: `CalculateHash` never fails — on input that is not
well-formed JSON it silently hashes the raw bytes (the fallback the claim
ruled out); the rejection of invalid JSON happens upstream instead, in
`StoreJSON` of both backends, which validates before any fingerprint is
computed and leaves the store unchanged. -/
theorem calculateHash_fallback_policy (st : St) (now : Nat) (data : Bytes)
    (h : jsonValid data = false) :
    CalculateHash data = .ok (sha256hex data) ∧
    pgStoreJSON st now data = (.error .invalidDocument, st) ∧
    myStoreJSON st now data = (.error .invalidDocument, st) := by
  have hparse : parseDocument data = none := by
    unfold jsonValid at h
    exact Option.not_isSome_iff_eq_none.mp (by simp [h])
  refine ⟨?_, ?_, ?_⟩
  · simp [CalculateHash, NormalizeJSON, hparse]
  · simp [pgStoreJSON, h]
  · simp [myStoreJSON, h]

theorem calculateHash_fallback_policy_witness :
    jsonValid [123, 110, 111, 116, 32, 106, 115, 111, 110] = false ∧
    (CalculateHash [123, 110, 111, 116, 32, 106, 115, 111, 110] =
       .ok (sha256hex [123, 110, 111, 116, 32, 106, 115, 111, 110]) ∧
     pgStoreJSON emptySt 0 [123, 110, 111, 116, 32, 106, 115, 111, 110] =
       (.error .invalidDocument, emptySt) ∧
     myStoreJSON emptySt 0 [123, 110, 111, 116, 32, 106, 115, 111, 110] =
       (.error .invalidDocument, emptySt)) :=
  ⟨by rfl, calculateHash_fallback_policy emptySt 0 _ (by rfl)⟩

/-- **C7** (Not-found boundary): an identifier matching no row makes
`GetJSONByID` fail with the not-found error, a fingerprint matching no row
makes `GetJSONByHash` fail with the not-found error, and on a match each
returns the full stored document, metadata included, in both backends. -/
theorem get_notFound_boundary (st : St) (id : Nat) (h : String)
    (hid : ∀ r ∈ st.rows, r.id ≠ id)
    (hh : ∀ r ∈ st.rows, r.contentHash ≠ h) :
    (pgGetJSONByID st id = .error .notFound ∧
     myGetJSONByID st id = .error .notFound ∧
     pgGetJSONByHash st h = .error .notFound ∧
     myGetJSONByHash st h = .error .notFound) ∧
    (∀ st' i doc, findById st' i = some doc →
       pgGetJSONByID st' i = .ok doc ∧ myGetJSONByID st' i = .ok doc) ∧
    (∀ st' g doc, findByHash st' g = some doc →
       pgGetJSONByHash st' g = .ok doc ∧ myGetJSONByHash st' g = .ok doc) := by
  have hfid : findById st id = none := by
    apply findFirst_eq_none
    intro r hr
    simp only [beq_eq_false_iff_ne, ne_eq]
    exact hid r hr
  have hfh : findByHash st h = none := by
    apply findFirst_eq_none
    intro r hr
    simp only [beq_eq_false_iff_ne, ne_eq]
    exact hh r hr
  refine ⟨⟨?_, ?_, ?_, ?_⟩, ?_, ?_⟩
  · simp [pgGetJSONByID, hfid]
  · simp [myGetJSONByID, hfid]
  · simp [pgGetJSONByHash, hfh]
  · simp [myGetJSONByHash, hfh]
  · intro st' i doc hfind
    exact ⟨by simp [pgGetJSONByID, hfind], by simp [myGetJSONByID, hfind]⟩
  · intro st' g doc hfind
    exact ⟨by simp [pgGetJSONByHash, hfind], by simp [myGetJSONByHash, hfind]⟩

theorem get_notFound_boundary_witness :
    (∀ r ∈ emptySt.rows, r.id ≠ 0) ∧
    (∀ r ∈ emptySt.rows, r.contentHash ≠
      "0000000000000000000000000000000000000000000000000000000000000000") ∧
    (pgGetJSONByID emptySt 0 = .error .notFound ∧
     myGetJSONByID emptySt 0 = .error .notFound ∧
     pgGetJSONByHash emptySt
       "0000000000000000000000000000000000000000000000000000000000000000" =
       .error .notFound ∧
     myGetJSONByHash emptySt
       "0000000000000000000000000000000000000000000000000000000000000000" =
       .error .notFound) := by
  have h₁ : ∀ r ∈ emptySt.rows, r.id ≠ 0 := by intro r hr; simp [emptySt] at hr
  have h₂ : ∀ r ∈ emptySt.rows, r.contentHash ≠
      "0000000000000000000000000000000000000000000000000000000000000000" := by
    intro r hr; simp [emptySt] at hr
  exact ⟨h₁, h₂, (get_notFound_boundary emptySt 0 _ h₁ h₂).1⟩

/-- **C9** (Implicit `is_new` heuristic): the handler's `is_new` flag is
computed solely from the clock — it is `true` exactly when less than one
second separates the returned document's `created_at` from the moment the
response is built — and when the store deduplicates (the fingerprint
already had a row), the state is unchanged, so a pre-existing document
created under one second earlier is reported as newly created. -/
theorem handler_isNew_heuristic (st : St) (t₁ t₂ : Nat) (data : Bytes)
    (doc : Doc) (st' : St)
    (h : pgStoreJSON st t₁ data = (.ok doc, st')) :
    handlerStoreJSON st t₁ t₂ data = (.ok (mkStoreResponse t₂ doc), st') ∧
    ((mkStoreResponse t₂ doc).isNew = true ↔ t₂ - doc.createdAt < 1000000000) ∧
    (findByHash st (calculateHash data) = some doc → st' = st) := by
  refine ⟨?_, ?_, ?_⟩
  · simp [handlerStoreJSON, h]
  · simp [mkStoreResponse]
  · intro hfind
    by_cases hv : jsonValid data = true
    · have hpg : pgStoreJSON st t₁ data = (.ok doc, st) := by
        simp [pgStoreJSON, hv, hfind]
      rw [hpg] at h
      exact (congrArg Prod.snd h).symm
    · have hv' : jsonValid data = false := by
        revert hv
        cases jsonValid data <;> simp
      simp [pgStoreJSON, hv'] at h

theorem handler_isNew_heuristic_witness :
    pgStoreJSON
        ⟨[⟨0, calculateHash [123, 125], [123, 125], 2, [], 0, 0⟩], 1⟩ 5 [123, 125]
      = (.ok ⟨0, calculateHash [123, 125], [123, 125], 2, [], 0, 0⟩,
         ⟨[⟨0, calculateHash [123, 125], [123, 125], 2, [], 0, 0⟩], 1⟩) ∧
    (handlerStoreJSON
        ⟨[⟨0, calculateHash [123, 125], [123, 125], 2, [], 0, 0⟩], 1⟩ 5 999 [123, 125]
      = (.ok (mkStoreResponse 999 ⟨0, calculateHash [123, 125], [123, 125], 2, [], 0, 0⟩),
         ⟨[⟨0, calculateHash [123, 125], [123, 125], 2, [], 0, 0⟩], 1⟩) ∧
     ((mkStoreResponse 999 ⟨0, calculateHash [123, 125], [123, 125], 2, [], 0, 0⟩).isNew
        = true ↔ 999 - 0 < 1000000000) ∧
     (findByHash ⟨[⟨0, calculateHash [123, 125], [123, 125], 2, [], 0, 0⟩], 1⟩
          (calculateHash [123, 125])
        = some ⟨0, calculateHash [123, 125], [123, 125], 2, [], 0, 0⟩ →
       ⟨[⟨0, calculateHash [123, 125], [123, 125], 2, [], 0, 0⟩], 1⟩
         = (⟨[⟨0, calculateHash [123, 125], [123, 125], 2, [], 0, 0⟩], 1⟩ : St))) ∧
    (mkStoreResponse 999 ⟨0, calculateHash [123, 125], [123, 125], 2, [], 0, 0⟩).isNew
      = true :=
  ⟨by rfl,
   handler_isNew_heuristic _ 5 999 [123, 125] _ _ (by rfl),
   by rfl⟩

/-- **C10 counterexample**: contrary to the claim that `NormalizeJSON` in
src/utils/hash.go returns an error for every valid non-object top-level
value, the literal `null` unmarshals into a nil map without error and
re-marshals as `null`, so `NormalizeJSON` succeeds on it. -/
theorem normalizeJSON_succeeds_on_null :
    parseDocument [110, 117, 108, 108] = some .null ∧
    NormalizeJSON [110, 117, 108, 108] = some [110, 117, 108, 108] :=
  ⟨rfl, rfl⟩

/-- **C10 amended**: `NormalizeJSON` of src/utils/hash.go succeeds exactly
on top-level objects and the literal `null`; for valid input with array,
string, number or boolean top level it errors and `CalculateHash` hashes
the raw input bytes unchanged; the src/unnamed/part_004 variant
canonicalizes every valid JSON value; and the two `CalculateHash`
implementations are not extensionally equal, differing at `[1, 2]`. -/
theorem normalizeJSON_toplevel_behavior (b : Bytes) (v : Jv)
    (h : parseDocument b = some v) :
    ((∀ fs, v ≠ .obj fs) → v ≠ .null →
       NormalizeJSON b = none ∧ CalculateHash b = .ok (sha256hex b)) ∧
    (∀ fs, v = .obj fs → NormalizeJSON b = some (marshal v)) ∧
    (v = .null → NormalizeJSON b = some (marshal v)) ∧
    NormalizeJSONAny b = some (marshal v) ∧
    CalculateHash [91, 49, 44, 32, 50, 93] ≠ CalculateHashAny [91, 49, 44, 32, 50, 93] := by
  refine ⟨?_, ?_, ?_, ?_, ?_⟩
  · intro hobj hnull
    have hn : NormalizeJSON b = none := by
      unfold NormalizeJSON
      rw [h]
      cases v with
      | obj fs => exact absurd rfl (hobj fs)
      | null => exact absurd rfl hnull
      | bool x => rfl
      | num m e => rfl
      | str s => rfl
      | arr es => rfl
    exact ⟨hn, by simp [CalculateHash, hn]⟩
  · intro fs hv
    subst hv
    simp [NormalizeJSON, h]
  · intro hv
    subst hv
    simp [NormalizeJSON, h]
  · simp [NormalizeJSONAny, h]
  · intro heq
    have h₁ : CalculateHash [91, 49, 44, 32, 50, 93]
        = .ok (sha256hex [91, 49, 44, 32, 50, 93]) := rfl
    have h₂ : CalculateHashAny [91, 49, 44, 32, 50, 93]
        = .ok (sha256hex [91, 49, 44, 50, 93]) := rfl
    rw [h₁, h₂] at heq
    have : sha256hex [91, 49, 44, 32, 50, 93] = sha256hex [91, 49, 44, 50, 93] :=
      Except.ok.inj heq
    exact absurd this (by decide)

theorem normalizeJSON_toplevel_behavior_witness :
    parseDocument [91, 49, 44, 32, 50, 93] = some (.arr [.num 1 0, .num 2 0]) ∧
    (((∀ fs, Jv.arr [.num 1 0, .num 2 0] ≠ .obj fs) →
        Jv.arr [.num 1 0, .num 2 0] ≠ .null →
        NormalizeJSON [91, 49, 44, 32, 50, 93] = none ∧
        CalculateHash [91, 49, 44, 32, 50, 93]
          = .ok (sha256hex [91, 49, 44, 32, 50, 93])) ∧
     (∀ fs, Jv.arr [.num 1 0, .num 2 0] = .obj fs →
        NormalizeJSON [91, 49, 44, 32, 50, 93]
          = some (marshal (.arr [.num 1 0, .num 2 0]))) ∧
     (Jv.arr [.num 1 0, .num 2 0] = .null →
        NormalizeJSON [91, 49, 44, 32, 50, 93]
          = some (marshal (.arr [.num 1 0, .num 2 0]))) ∧
     NormalizeJSONAny [91, 49, 44, 32, 50, 93]
       = some (marshal (.arr [.num 1 0, .num 2 0])) ∧
     CalculateHash [91, 49, 44, 32, 50, 93] ≠ CalculateHashAny [91, 49, 44, 32, 50, 93]) :=
  ⟨by rfl, normalizeJSON_toplevel_behavior [91, 49, 44, 32, 50, 93] _ (by rfl)⟩

theorem firstInvalidFrom_spec (docs : List Bytes) :
    ∀ k i, firstInvalidFrom docs k = some i →
      k ≤ i ∧ (∃ d, docs[i - k]? = some d ∧ jsonValid d = false) ∧
      (∀ j b, j < i - k → docs[j]? = some b → jsonValid b = true) := by
  induction docs with
  | nil => intro k i h; simp [firstInvalidFrom] at h
  | cons d rest ih =>
    intro k i h
    cases hv : jsonValid d with
    | false =>
      simp only [firstInvalidFrom, hv, Bool.not_false, if_true] at h
      obtain rfl : k = i := Option.some.inj h
      refine ⟨Nat.le_refl _, ⟨d, ?_, hv⟩, ?_⟩
      · simp
      · intro j b hj
        omega
    | true =>
      simp only [firstInvalidFrom, hv, Bool.not_true, Bool.false_eq_true, if_false] at h
      obtain ⟨hk, ⟨d', hd', hvd'⟩, hprev⟩ := ih (k + 1) i h
      refine ⟨by omega, ⟨d', ?_, hvd'⟩, ?_⟩
      · have : i - k = (i - (k + 1)) + 1 := by omega
        rw [this]
        simpa using hd'
      · intro j b hj hb
        cases j with
        | zero =>
          simp at hb
          rw [← hb]
          exact hv
        | succ j' =>
          simp at hb
          exact hprev j' b (by omega) hb

/-- **C4 counterexample**: for the 2-item batch `["{", "{}"]` — item 0
malformed, item 1 valid — the claim requires an un-aborted batch with
`success_count = 1`, `failure_count = 1` and a failure entry at index 0,
with the valid item stored; the handler instead rejects the whole request
with an `INVALID_JSON` error before calling the engine, and nothing is
stored. -/
theorem storeBatch_abort_counterexample :
    jsonValid [123] = false ∧ jsonValid [123, 125] = true ∧
    handlerStoreJSONBatch emptySt 0 0 [[123], [123, 125]]
      = (.error (.invalidJsonAt 0), emptySt) ∧
    ∀ resp st', handlerStoreJSONBatch emptySt 0 0 [[123], [123, 125]]
      ≠ (.ok resp, st') := by
  refine ⟨by rfl, by rfl, by rfl, ?_⟩
  intro resp st' hcontra
  have h : handlerStoreJSONBatch emptySt 0 0 [[123], [123, 125]]
      = (.error (.invalidJsonAt 0), emptySt) := by rfl
  rw [h] at hcontra
  exact absurd (congrArg Prod.fst hcontra) (by simp)

/-- **C4 amended**: a batch (within the 1..100 size bounds) containing a
malformed item is *not* partially processed: the handler pre-validates
every item and rejects the whole request with an `INVALID_JSON` error
naming the first malformed index, before the storage engine is invoked, so
the store state is unchanged and no item — valid or not — is stored or
retrievable afterward. -/
theorem storeBatch_aborts_at_first_invalid (st : St) (t₁ t₂ : Nat)
    (docs : List Bytes) (i : Nat)
    (h1 : 1 ≤ docs.length) (h100 : docs.length ≤ 100)
    (hi : firstInvalidIdx docs = some i) :
    handlerStoreJSONBatch st t₁ t₂ docs = (.error (.invalidJsonAt i), st) ∧
    (∃ d, docs[i]? = some d ∧ jsonValid d = false) ∧
    (∀ j b, j < i → docs[j]? = some b → jsonValid b = true) := by
  obtain ⟨-, hinv, hprev⟩ := firstInvalidFrom_spec docs 0 i hi
  have hbounds : ¬(docs.length < 1 ∨ docs.length > 100) := by omega
  refine ⟨?_, by simpa using hinv, fun j b hj hb => hprev j b (by omega) hb⟩
  unfold handlerStoreJSONBatch
  rw [if_neg hbounds, hi]

theorem storeBatch_aborts_at_first_invalid_witness :
    (1 ≤ ([[123, 125], [123]] : List Bytes).length ∧
     ([[123, 125], [123]] : List Bytes).length ≤ 100 ∧
     firstInvalidIdx [[123, 125], [123]] = some 1) ∧
    (handlerStoreJSONBatch emptySt 0 9 [[123, 125], [123]]
       = (.error (.invalidJsonAt 1), emptySt) ∧
     (∃ d, ([[123, 125], [123]] : List Bytes)[1]? = some d ∧ jsonValid d = false) ∧
     (∀ j b, j < 1 → ([[123, 125], [123]] : List Bytes)[j]? = some b →
        jsonValid b = true)) :=
  ⟨⟨by decide, by decide, by rfl⟩,
   storeBatch_aborts_at_first_invalid emptySt 0 9 [[123, 125], [123]] 1
     (by decide) (by decide) (by rfl)⟩

theorem insertByCreatedDesc_perm (d : Doc) (l : List Doc) :
    List.Perm (insertByCreatedDesc d l) (d :: l) := by
  induction l with
  | nil => exact List.Perm.refl _
  | cons e rest ih =>
    by_cases hc : d.createdAt > e.createdAt
    · simp only [insertByCreatedDesc, if_pos hc]
      exact List.Perm.refl _
    · simp only [insertByCreatedDesc, if_neg hc]
      exact (ih.cons e).trans (List.Perm.swap d e rest)

theorem sortByCreatedDesc_perm (l : List Doc) :
    List.Perm (sortByCreatedDesc l) l := by
  induction l with
  | nil => exact List.Perm.refl _
  | cons d rest ih =>
    exact (insertByCreatedDesc_perm d (sortByCreatedDesc rest)).trans (ih.cons d)

theorem mem_of_getElemQ {α} (l : List α) (i : Nat) (a : α)
    (h : l[i]? = some a) : a ∈ l := by
  induction l generalizing i with
  | nil => simp at h
  | cons b rest ih =>
    cases i with
    | zero =>
      simp at h
      rw [← h]
      exact List.mem_cons_self b rest
    | succ i' =>
      simp at h
      exact List.mem_cons_of_mem b (ih i' h)

theorem filter_length_lt {α} (p : α → Bool) (l : List α) (a : α)
    (ha : a ∈ l) (hpa : p a = false) : (l.filter p).length < l.length := by
  induction l with
  | nil => simp at ha
  | cons b rest ih =>
    rcases List.mem_cons.mp ha with hb | hb
    · subst hb
      rw [List.filter_cons_of_neg]
      · have := List.length_filter_le p rest
        simp only [List.length_cons]
        omega
      · simp [hpa]
    · cases hpb : p b with
      | true =>
        rw [List.filter_cons_of_pos (by simp [hpb])]
        simp only [List.length_cons]
        exact Nat.succ_lt_succ (ih hb)
      | false =>
        rw [List.filter_cons_of_neg (by simp [hpb])]
        simp only [List.length_cons]
        exact Nat.lt_succ_of_lt (ih hb)

theorem notFoundFailures_complete (docs : List Doc) (ids : List Nat) :
    ∀ k i id, ids[i]? = some id → docs.any (fun d => d.id == id) = false →
      ∃ f ∈ notFoundFailures docs ids k, f.index = k + i := by
  induction ids with
  | nil => intro k i id h _; simp at h
  | cons a rest ih =>
    intro k i id hgot hany
    cases i with
    | zero =>
      simp only [List.getElem?_cons_zero, Option.some.injEq] at hgot
      subst hgot
      simp only [notFoundFailures, hany, Bool.false_eq_true, if_false]
      exact ⟨_, List.mem_cons_self _ _, by simp⟩
    | succ i' =>
      simp only [List.getElem?_cons_succ] at hgot
      obtain ⟨f, hf, hidx⟩ := ih (k + 1) i' id hgot hany
      cases hh : docs.any (fun d => d.id == a) with
      | true =>
        simp only [notFoundFailures, hh, if_true]
        exact ⟨f, hf, by omega⟩
      | false =>
        simp only [notFoundFailures, hh, Bool.false_eq_true, if_false]
        exact ⟨f, List.mem_cons_of_mem _ hf, by omega⟩

theorem notFoundFailures_sound (docs : List Doc) (ids : List Nat) :
    ∀ k f, f ∈ notFoundFailures docs ids k →
      ∃ i id, f.index = k + i ∧ ids[i]? = some id ∧
        docs.any (fun d => d.id == id) = false := by
  induction ids with
  | nil => intro k f hf; simp [notFoundFailures] at hf
  | cons a rest ih =>
    intro k f hf
    cases hh : docs.any (fun d => d.id == a) with
    | true =>
      simp only [notFoundFailures, hh, if_true] at hf
      obtain ⟨i, id, hidx, hgot, hany⟩ := ih (k + 1) f hf
      exact ⟨i + 1, id, by omega, by simpa using hgot, hany⟩
    | false =>
      simp only [notFoundFailures, hh, Bool.false_eq_true, if_false] at hf
      rcases List.mem_cons.mp hf with hhd | htl
      · subst hhd
        exact ⟨0, a, by simp, by simp, hh⟩
      · obtain ⟨i, id, hidx, hgot, hany⟩ := ih (k + 1) f htl
        exact ⟨i + 1, id, by omega, by simpa using hgot, hany⟩

/-- **C8** (Batch retrieval traceability): for a request of 1..100
identifiers against a store whose rows carry distinct ids, every requested
identifier with no stored document yields a failure entry carrying its
originating index, every failure entry's index points at such a missing
identifier, `success_count + failure_count` equals the number of requested
identifiers, and the returned documents are exactly the stored requested
ones, in some order. -/
theorem getBatch_traceability (st : St) (ids : List Nat) (resp : GetBatchResponse)
    (hnd : (st.rows.map (fun r => r.id)).Nodup)
    (hresp : handlerGetJSONBatch st ids = .ok resp) :
    (∀ i id, ids[i]? = some id → (∀ r ∈ st.rows, r.id ≠ id) →
       ∃ f ∈ resp.failures, f.index = i) ∧
    (∀ f ∈ resp.failures, ∃ id, ids[f.index]? = some id ∧
       ∀ r ∈ st.rows, r.id ≠ id) ∧
    resp.successCount + resp.failureCount = ids.length ∧
    List.Perm resp.documents (st.rows.filter (fun r => ids.contains r.id)) := by
  by_cases h0 : ids.length = 0
  · unfold handlerGetJSONBatch at hresp
    rw [if_pos h0] at hresp
    simp at hresp
  by_cases h100 : ids.length > 100
  · unfold handlerGetJSONBatch at hresp
    rw [if_neg h0, if_pos h100] at hresp
    simp at hresp
  have hpg : pgGetJSONBatch st ids
      = .ok (sortByCreatedDesc (st.rows.filter (fun r => ids.contains r.id))) := by
    unfold pgGetJSONBatch
    rw [if_neg h0, if_neg h100]
  unfold handlerGetJSONBatch at hresp
  rw [if_neg h0, if_neg h100, hpg] at hresp
  set docs := sortByCreatedDesc (st.rows.filter (fun r => ids.contains r.id)) with hdocs
  have hresp' := (Except.ok.inj hresp).symm
  subst hresp'
  have hperm : List.Perm docs (st.rows.filter (fun r => ids.contains r.id)) :=
    sortByCreatedDesc_perm _
  -- documents are rows whose id was requested
  have hmemdocs : ∀ x ∈ docs, x ∈ st.rows ∧ ids.contains x.id = true := by
    intro x hx
    have := List.mem_filter.mp (hperm.mem_iff.mp hx)
    exact ⟨this.1, this.2⟩
  -- distinct ids in the result
  have hnddocs : (docs.map (fun r => r.id)).Nodup := by
    have hsub : List.Sublist (st.rows.filter (fun r => ids.contains r.id)) st.rows :=
      List.filter_sublist _
    have := hnd.sublist (hsub.map (fun r => r.id))
    exact ((hperm.map (fun r => r.id)).nodup_iff).mpr this
  -- ids of documents are requested ids
  have hsubids : (docs.map (fun r => r.id)) ⊆ ids := by
    intro a ha
    obtain ⟨x, hx, rfl⟩ := List.mem_map.mp ha
    exact List.mem_of_elem_eq_true (hmemdocs x hx).2
  -- success bound
  have hlen : docs.length ≤ ids.length := by
    have := (hnddocs.subperm hsubids).length_le
    simpa using this
  -- "document with this id is in docs" is equivalent to any-check
  have hany_iff : ∀ id, docs.any (fun d => d.id == id) = true ↔
      ∃ d ∈ docs, d.id = id := by
    intro id
    simp [List.any_eq_true]
  refine ⟨?_, ?_, ?_, hperm⟩
  · -- completeness: missing id at index i produces a failure at index i
    intro i id hgot hmiss
    have hidmem : id ∈ ids := mem_of_getElemQ ids i id hgot
    have hanyf : docs.any (fun d => d.id == id) = false := by
      cases hany : docs.any (fun d => d.id == id) with
      | false => rfl
      | true =>
        obtain ⟨d, hd, hdid⟩ := (hany_iff id).mp hany
        exact absurd hdid (hmiss d (hmemdocs d hd).1)
    -- the failure branch is taken: docs.length < ids.length
    have hlt : docs.length < ids.length := by
      have hsubf : (docs.map (fun r => r.id)) ⊆
          ids.filter (fun y => !(y == id)) := by
        intro a ha
        obtain ⟨x, hx, rfl⟩ := List.mem_map.mp ha
        apply List.mem_filter.mpr
        refine ⟨hsubids ha, ?_⟩
        have hne : x.id ≠ id := by
          intro hcontra
          have : docs.any (fun d => d.id == id) = true :=
            (hany_iff id).mpr ⟨x, hx, hcontra⟩
          rw [this] at hanyf
          cases hanyf
        simp [hne]
      have h₁ := (hnddocs.subperm hsubf).length_le
      have h₂ : (ids.filter (fun y => !(y == id))).length < ids.length :=
        filter_length_lt _ ids id hidmem (by simp)
      simp only [List.length_map] at h₁
      omega
    have hfc : ids.length - docs.length > 0 := by omega
    simp only [if_pos hfc]
    obtain ⟨f, hf, hidx⟩ := notFoundFailures_complete docs ids 0 i id hgot hanyf
    exact ⟨f, hf, by omega⟩
  · -- soundness: every failure entry points at a requested-but-missing id
    intro f hf
    by_cases hfc : ids.length - docs.length > 0
    · simp only [if_pos hfc] at hf
      obtain ⟨i, id, hidx, hgot, hany⟩ := notFoundFailures_sound docs ids 0 f hf
      refine ⟨id, by simpa [hidx] using hgot, ?_⟩
      intro r hr hcontra
      have hidmem : id ∈ ids := mem_of_getElemQ ids i id hgot
      have hrin : r ∈ st.rows.filter (fun x => ids.contains x.id) := by
        apply List.mem_filter.mpr
        refine ⟨hr, ?_⟩
        rw [hcontra]
        exact List.elem_eq_true_of_mem hidmem
      have hrdocs : r ∈ docs := hperm.mem_iff.mpr hrin
      have : docs.any (fun d => d.id == id) = true :=
        (hany_iff id).mpr ⟨r, hrdocs, hcontra⟩
      rw [this] at hany
      cases hany
    · simp only [if_neg hfc] at hf
      simp at hf
  · -- counts
    simp only []
    omega

theorem getBatch_traceability_witness :
    ((((⟨[⟨5, "h", [110, 117, 108, 108], 4, [], 0, 0⟩], 6⟩ : St)).rows.map
        (fun r => r.id)).Nodup ∧
     handlerGetJSONBatch ⟨[⟨5, "h", [110, 117, 108, 108], 4, [], 0, 0⟩], 6⟩ [5, 9]
       = .ok ⟨1, 1, [⟨5, "h", [110, 117, 108, 108], 4, [], 0, 0⟩],
              [⟨1, "NOT_FOUND", "Document not found"⟩]⟩) ∧
    ((∀ i id, ([5, 9] : List Nat)[i]? = some id →
        (∀ r ∈ (⟨[⟨5, "h", [110, 117, 108, 108], 4, [], 0, 0⟩], 6⟩ : St).rows,
           r.id ≠ id) →
        ∃ f ∈ (⟨1, 1, [⟨5, "h", [110, 117, 108, 108], 4, [], 0, 0⟩],
                [⟨1, "NOT_FOUND", "Document not found"⟩]⟩ : GetBatchResponse).failures,
          f.index = i) ∧
     (∀ f ∈ (⟨1, 1, [⟨5, "h", [110, 117, 108, 108], 4, [], 0, 0⟩],
              [⟨1, "NOT_FOUND", "Document not found"⟩]⟩ : GetBatchResponse).failures,
        ∃ id, ([5, 9] : List Nat)[f.index]? = some id ∧
          ∀ r ∈ (⟨[⟨5, "h", [110, 117, 108, 108], 4, [], 0, 0⟩], 6⟩ : St).rows,
            r.id ≠ id) ∧
     (⟨1, 1, [⟨5, "h", [110, 117, 108, 108], 4, [], 0, 0⟩],
       [⟨1, "NOT_FOUND", "Document not found"⟩]⟩ : GetBatchResponse).successCount +
       (⟨1, 1, [⟨5, "h", [110, 117, 108, 108], 4, [], 0, 0⟩],
         [⟨1, "NOT_FOUND", "Document not found"⟩]⟩ : GetBatchResponse).failureCount
       = ([5, 9] : List Nat).length ∧
     List.Perm (⟨1, 1, [⟨5, "h", [110, 117, 108, 108], 4, [], 0, 0⟩],
                 [⟨1, "NOT_FOUND", "Document not found"⟩]⟩ : GetBatchResponse).documents
       ((⟨[⟨5, "h", [110, 117, 108, 108], 4, [], 0, 0⟩], 6⟩ : St).rows.filter
          (fun r => ([5, 9] : List Nat).contains r.id))) :=
  ⟨⟨by simp, by rfl⟩,
   getBatch_traceability ⟨[⟨5, "h", [110, 117, 108, 108], 4, [], 0, 0⟩], 6⟩ [5, 9] _
     (by simp) (by rfl)⟩

/-! ### Order lemmas for the canonical key sort -/

theorem keyLe_total : ∀ a b : Bytes, keyLe a b = true ∨ keyLe b a = true
  | [], _ => Or.inl rfl
  | _ :: _, [] => Or.inr rfl
  | a :: as, b :: bs => by
    by_cases hab : a < b
    · left
      simp [keyLe, hab]
    · by_cases hba : b < a
      · right
        simp [keyLe, hba]
      · rcases keyLe_total as bs with h | h
        · left
          simp [keyLe, hab, hba, h]
        · right
          simp [keyLe, hab, hba, h]

theorem keyLe_trans : ∀ a b c : Bytes,
    keyLe a b = true → keyLe b c = true → keyLe a c = true
  | [], _, _ => by
    intro _ _
    rfl
  | _ :: _, [], _ => by
    intro h _
    simp [keyLe] at h
  | _ :: _, _ :: _, [] => by
    intro _ h
    simp [keyLe] at h
  | a :: as, b :: bs, c :: cs => by
    intro h1 h2
    by_cases hab : a < b
    · by_cases hbc : b < c
      · simp [keyLe, show a < c by omega]
      · by_cases hcb : c < b
        · simp [keyLe, hbc, hcb] at h2
        · have hbceq : b = c := by omega
          subst hbceq
          simp [keyLe, hab]
    · by_cases hba : b < a
      · simp [keyLe, hab, hba] at h1
      · have habeq : a = b := by omega
        subst habeq
        simp only [keyLe, if_neg hab, if_neg hba] at h1
        by_cases hac : a < c
        · simp [keyLe, hac]
        · by_cases hca : c < a
          · simp [keyLe, hac, hca] at h2
          · simp only [keyLe, if_neg hac, if_neg hca] at h2 ⊢
            exact keyLe_trans as bs cs h1 h2

theorem keyLe_antisymm : ∀ a b : Bytes,
    keyLe a b = true → keyLe b a = true → a = b
  | [], [] => by
    intro _ _
    rfl
  | [], _ :: _ => by
    intro _ h
    simp [keyLe] at h
  | _ :: _, [] => by
    intro h _
    simp [keyLe] at h
  | a :: as, b :: bs => by
    intro h1 h2
    by_cases hab : a < b
    · simp [keyLe, hab, show ¬ b < a by omega] at h2
    · by_cases hba : b < a
      · simp [keyLe, hab, hba] at h1
      · have habeq : a = b := by omega
        subst habeq
        simp only [keyLe, if_neg hab, if_neg hba] at h1 h2
        rw [keyLe_antisymm as bs h1 h2]

theorem insertKey_perm (p : Bytes × Jv) (l : List (Bytes × Jv)) :
    List.Perm (insertKey p l) (p :: l) := by
  induction l with
  | nil => exact List.Perm.refl _
  | cons q rest ih =>
    by_cases hc : keyLe p.1 q.1 = true
    · simp only [insertKey, if_pos hc]
      exact List.Perm.refl _
    · simp only [insertKey, if_neg hc]
      exact (ih.cons q).trans (List.Perm.swap p q rest)

theorem sortFields_perm (l : List (Bytes × Jv)) :
    List.Perm (sortFields l) l := by
  induction l with
  | nil => exact List.Perm.refl _
  | cons p rest ih =>
    exact (insertKey_perm p (sortFields rest)).trans (ih.cons p)

theorem mem_insertKey {p x : Bytes × Jv} {l : List (Bytes × Jv)}
    (h : x ∈ insertKey p l) : x = p ∨ x ∈ l :=
  List.mem_cons.mp ((insertKey_perm p l).mem_iff.mp h)

theorem insertKey_pairwise (p : Bytes × Jv) (l : List (Bytes × Jv))
    (h : l.Pairwise fieldLe) : (insertKey p l).Pairwise fieldLe := by
  induction l with
  | nil => simp [insertKey, List.pairwise_cons]
  | cons q rest ih =>
    rcases List.pairwise_cons.mp h with ⟨hq, hrest⟩
    by_cases hc : keyLe p.1 q.1 = true
    · simp only [insertKey, if_pos hc]
      apply List.pairwise_cons.mpr
      refine ⟨?_, h⟩
      intro x hx
      rcases List.mem_cons.mp hx with rfl | hx'
      · exact hc
      · exact keyLe_trans _ _ _ hc (hq x hx')
    · simp only [insertKey, if_neg hc]
      apply List.pairwise_cons.mpr
      refine ⟨?_, ih hrest⟩
      intro x hx
      rcases mem_insertKey hx with rfl | hx'
      · rcases keyLe_total x.1 q.1 with h' | h'
        · exact absurd h' hc
        · exact h'
      · exact hq x hx'

theorem sortFields_pairwise (l : List (Bytes × Jv)) :
    (sortFields l).Pairwise fieldLe := by
  induction l with
  | nil => simp [sortFields]
  | cons p rest ih => exact insertKey_pairwise p (sortFields rest) ih

/-! ### Structure lemmas for `canon`, `wf` and `jequivB` -/

theorem canonList_eq_map (es : List Jv) : canonList es = es.map canon := by
  induction es with
  | nil => rfl
  | cons v rest ih => simp [canonList, ih]

theorem canonFields_eq_map (fs : List (Bytes × Jv)) :
    canonFields fs = fs.map (fun p => (p.1, canon p.2)) := by
  induction fs with
  | nil => rfl
  | cons p rest ih =>
    cases p with
    | mk k v => simp [canonFields, ih]

theorem wfFields_value {fs : List (Bytes × Jv)} (h : wfFields fs = true) :
    ∀ kv ∈ fs, wf kv.2 = true := by
  induction fs with
  | nil => intro kv hkv; simp at hkv
  | cons p rest ih =>
    cases p with
    | mk k v =>
      rw [wfFields, Bool.and_eq_true] at h
      rcases h with ⟨hv, hrest⟩
      intro kv hkv
      rcases List.mem_cons.mp hkv with rfl | hkv'
      · exact hv
      · exact ih hrest kv hkv'

theorem wfList_value {es : List Jv} (h : wfList es = true) :
    ∀ v ∈ es, wf v = true := by
  induction es with
  | nil => intro v hv; simp at hv
  | cons x rest ih =>
    rw [wfList, Bool.and_eq_true] at h
    rcases h with ⟨hx, hrest⟩
    intro v hv
    rcases List.mem_cons.mp hv with rfl | hv'
    · exact hx
    · exact ih hrest v hv'

theorem sizeJv_pos : ∀ v : Jv, 1 ≤ sizeJv v
  | .null => Nat.le_refl 1
  | .bool _ => Nat.le_refl 1
  | .num _ _ => Nat.le_refl 1
  | .str _ => Nat.le_refl 1
  | .arr _ => Nat.le_add_right 1 _
  | .obj _ => Nat.le_add_right 1 _

theorem size_le_of_mem_fields {fs : List (Bytes × Jv)} {k : Bytes} {v : Jv}
    (h : (k, v) ∈ fs) : sizeJv v ≤ sizeFields fs := by
  induction fs with
  | nil => simp at h
  | cons p rest ih =>
    cases p with
    | mk k' v' =>
      rw [sizeFields]
      rcases List.mem_cons.mp h with heq | h'
      · cases heq
        exact Nat.le_add_right _ _
      · exact Nat.le_trans (ih h') (Nat.le_add_left _ _)

theorem size_le_of_mem_list {es : List Jv} {v : Jv} (h : v ∈ es) :
    sizeJv v ≤ sizeList es := by
  induction es with
  | nil => simp at h
  | cons x rest ih =>
    rw [sizeList]
    rcases List.mem_cons.mp h with rfl | h'
    · exact Nat.le_add_right _ _
    · exact Nat.le_trans (ih h') (Nat.le_add_left _ _)

theorem noDupKeys_nodup {fs : List (Bytes × Jv)} (h : noDupKeys fs = true) :
    (fs.map Prod.fst).Nodup := by
  induction fs with
  | nil => simp
  | cons p rest ih =>
    cases p with
    | mk k v =>
      rw [noDupKeys, Bool.and_eq_true] at h
      rcases h with ⟨hfresh, hrest⟩
      simp only [List.map_cons, List.nodup_cons]
      refine ⟨?_, ih hrest⟩
      intro hmem
      obtain ⟨q, hq, hqk⟩ := List.mem_map.mp hmem
      have := List.all_eq_true.mp hfresh q hq
      simp only [Bool.not_eq_true', beq_eq_false_iff_ne, ne_eq] at this
      exact this hqk

theorem lookupKey_mem {k : Bytes} {w : Jv} :
    ∀ {qs : List (Bytes × Jv)}, lookupKey k qs = some w → (k, w) ∈ qs := by
  intro qs
  induction qs with
  | nil => intro h; simp [lookupKey] at h
  | cons p rest ih =>
    cases p with
    | mk k' v =>
      intro h
      rw [lookupKey] at h
      by_cases hk : (k' == k) = true
      · rw [if_pos hk] at h
        obtain rfl := Option.some.inj h
        have : k' = k := by simpa using hk
        subst this
        exact List.mem_cons_self _ _
      · rw [if_neg hk] at h
        exact List.mem_cons_of_mem _ (ih h)

theorem jequivPairs_lookup {ps qs : List (Bytes × Jv)}
    (h : jequivPairs ps qs = true) :
    ∀ p ∈ ps, ∃ w, lookupKey p.1 qs = some w ∧ jequivB p.2 w = true := by
  induction ps with
  | nil => intro p hp; simp at hp
  | cons p₀ rest ih =>
    cases p₀ with
    | mk k v =>
      rw [jequivPairs, Bool.and_eq_true] at h
      rcases h with ⟨hhead, hrest⟩
      intro p hp
      rcases List.mem_cons.mp hp with rfl | hp'
      · cases hlk : lookupKey k qs with
        | none =>
          rw [hlk] at hhead
          cases hhead
        | some w =>
          rw [hlk] at hhead
          exact ⟨w, rfl, hhead⟩
      · exact ih hrest p hp'

/-- Logically equal well-formed values have identical canonical forms
(strong induction on value size). -/
theorem canon_eq_of_jequiv :
    ∀ n v w, sizeJv v ≤ n → wf v = true → wf w = true → jequivB v w = true →
      canon v = canon w := by
  intro n
  induction n with
  | zero =>
    intro v w hsz _ _ _
    exact absurd (Nat.le_trans (sizeJv_pos v) hsz) (by omega)
  | succ n ih =>
    intro v w hsz hwv hww heq
    cases v with
    | null =>
      cases w with
      | null => rfl
      | bool b => exact Bool.noConfusion (show false = true from heq)
      | num m e => exact Bool.noConfusion (show false = true from heq)
      | str s => exact Bool.noConfusion (show false = true from heq)
      | arr es => exact Bool.noConfusion (show false = true from heq)
      | obj fs => exact Bool.noConfusion (show false = true from heq)
    | bool b =>
      cases w with
      | bool b' =>
        have h' : b = b' := by simpa using (show (b == b') = true from heq)
        rw [h']
      | null => exact Bool.noConfusion (show false = true from heq)
      | num m e => exact Bool.noConfusion (show false = true from heq)
      | str s => exact Bool.noConfusion (show false = true from heq)
      | arr es => exact Bool.noConfusion (show false = true from heq)
      | obj fs => exact Bool.noConfusion (show false = true from heq)
    | num m e =>
      cases w with
      | num m' e' =>
        have h' : (m == m' && e == e') = true := heq
        rw [Bool.and_eq_true] at h'
        have hm : m = m' := by simpa using h'.1
        have he : e = e' := by simpa using h'.2
        rw [hm, he]
      | null => exact Bool.noConfusion (show false = true from heq)
      | bool b => exact Bool.noConfusion (show false = true from heq)
      | str s => exact Bool.noConfusion (show false = true from heq)
      | arr es => exact Bool.noConfusion (show false = true from heq)
      | obj fs => exact Bool.noConfusion (show false = true from heq)
    | str s =>
      cases w with
      | str t =>
        have h' : s = t := by simpa using (show (s == t) = true from heq)
        rw [h']
      | null => exact Bool.noConfusion (show false = true from heq)
      | bool b => exact Bool.noConfusion (show false = true from heq)
      | num m e => exact Bool.noConfusion (show false = true from heq)
      | arr es => exact Bool.noConfusion (show false = true from heq)
      | obj fs => exact Bool.noConfusion (show false = true from heq)
    | arr es =>
      cases w with
      | arr ys =>
        have heq' : jequivList es ys = true := heq
        have hwv' : wfList es = true := hwv
        have hww' : wfList ys = true := hww
        have hsz' : sizeList es ≤ n := by
          have h1 : sizeJv (.arr es) = 1 + sizeList es := rfl
          omega
        have aux : ∀ xs ys', sizeList xs ≤ n → wfList xs = true →
            wfList ys' = true → jequivList xs ys' = true →
            canonList xs = canonList ys' := by
          intro xs
          induction xs with
          | nil =>
            intro ys' _ _ _ hj
            cases ys' with
            | nil => rfl
            | cons y t => exact Bool.noConfusion (show false = true from hj)
          | cons x xs' ihL =>
            intro ys' hszL hwx hwy hj
            cases ys' with
            | nil => exact Bool.noConfusion (show false = true from hj)
            | cons y t =>
              have hj' : (jequivB x y && jequivList xs' t) = true := hj
              rw [Bool.and_eq_true] at hj'
              have hwx' : (wf x && wfList xs') = true := hwx
              rw [Bool.and_eq_true] at hwx'
              have hwy' : (wf y && wfList t) = true := hwy
              rw [Bool.and_eq_true] at hwy'
              have hszx : sizeJv x ≤ n := by
                have h1 : sizeList (x :: xs') = sizeJv x + sizeList xs' := rfl
                omega
              have hszxs : sizeList xs' ≤ n := by
                have h1 : sizeList (x :: xs') = sizeJv x + sizeList xs' := rfl
                have h2 := sizeJv_pos x
                omega
              have e1 := ih x y hszx hwx'.1 hwy'.1 hj'.1
              have e2 := ihL t hszxs hwx'.2 hwy'.2 hj'.2
              show canon x :: canonList xs' = canon y :: canonList t
              rw [e1, e2]
        have h' := aux es ys hsz' hwv' hww' heq'
        show Jv.arr (canonList es) = Jv.arr (canonList ys)
        rw [h']
      | null => exact Bool.noConfusion (show false = true from heq)
      | bool b => exact Bool.noConfusion (show false = true from heq)
      | num m e => exact Bool.noConfusion (show false = true from heq)
      | str s => exact Bool.noConfusion (show false = true from heq)
      | obj fs => exact Bool.noConfusion (show false = true from heq)
    | obj ps =>
      cases w with
      | obj qs =>
        have heq' : (ps.length == qs.length && jequivPairs ps qs) = true := heq
        rw [Bool.and_eq_true] at heq'
        obtain ⟨hlenb, hpairs⟩ := heq'
        have hlen : ps.length = qs.length := by simpa using hlenb
        have hwv' : (noDupKeys ps && wfFields ps) = true := hwv
        rw [Bool.and_eq_true] at hwv'
        obtain ⟨hndp, hwfp⟩ := hwv'
        have hww' : (noDupKeys qs && wfFields qs) = true := hww
        rw [Bool.and_eq_true] at hww'
        obtain ⟨hndq, hwfq⟩ := hww'
        have hszf : sizeFields ps ≤ n := by
          have h1 : sizeJv (.obj ps) = 1 + sizeFields ps := rfl
          omega
        have hsubset : canonFields ps ⊆ canonFields qs := by
          intro x hx
          rw [canonFields_eq_map] at hx
          obtain ⟨⟨k, v⟩, hkv, rfl⟩ := List.mem_map.mp hx
          obtain ⟨w', hlk, hjeq⟩ := jequivPairs_lookup hpairs (k, v) hkv
          have hwq : (k, w') ∈ qs := lookupKey_mem hlk
          have hszv : sizeJv v ≤ n := Nat.le_trans (size_le_of_mem_fields hkv) hszf
          have hcv : canon v = canon w' :=
            ih v w' hszv (wfFields_value hwfp _ hkv) (wfFields_value hwfq _ hwq) hjeq
          rw [canonFields_eq_map]
          exact List.mem_map.mpr ⟨(k, w'), hwq, by simp [hcv]⟩
        have hkeysP : ((canonFields ps).map Prod.fst).Nodup := by
          rw [canonFields_eq_map]
          have hmm : (ps.map (fun p => (p.1, canon p.2))).map Prod.fst
              = ps.map Prod.fst := by
            simp [List.map_map, Function.comp]
          rw [hmm]
          exact noDupKeys_nodup hndp
        have hkeysQ : ((canonFields qs).map Prod.fst).Nodup := by
          rw [canonFields_eq_map]
          have hmm : (qs.map (fun p => (p.1, canon p.2))).map Prod.fst
              = qs.map Prod.fst := by
            simp [List.map_map, Function.comp]
          rw [hmm]
          exact noDupKeys_nodup hndq
        have hndpairs : (canonFields ps).Nodup := List.Nodup.of_map Prod.fst hkeysP
        have hlencf : (canonFields qs).length ≤ (canonFields ps).length := by
          rw [canonFields_eq_map, canonFields_eq_map]
          simp [hlen]
        have hperm : List.Perm (canonFields ps) (canonFields qs) :=
          (hndpairs.subperm hsubset).perm_of_length_le hlencf
        have hstrict : ∀ l : List (Bytes × Jv), l.Pairwise fieldLe →
            (l.map Prod.fst).Nodup → l.Pairwise fieldLt := by
          intro l hle hnd
          have hne : l.Pairwise (fun p q => p.1 ≠ q.1) := List.pairwise_map.mp hnd
          exact (hle.and hne).imp (fun h => ⟨h.1, h.2⟩)
        have hndSP : ((sortFields (canonFields ps)).map Prod.fst).Nodup :=
          (((sortFields_perm (canonFields ps)).map Prod.fst).nodup_iff).mpr hkeysP
        have hndSQ : ((sortFields (canonFields qs)).map Prod.fst).Nodup :=
          (((sortFields_perm (canonFields qs)).map Prod.fst).nodup_iff).mpr hkeysQ
        have hstP := hstrict _ (sortFields_pairwise (canonFields ps)) hndSP
        have hstQ := hstrict _ (sortFields_pairwise (canonFields qs)) hndSQ
        have hpermS : List.Perm (sortFields (canonFields ps))
            (sortFields (canonFields qs)) :=
          ((sortFields_perm _).trans hperm).trans (sortFields_perm _).symm
        haveI : IsAntisymm (Bytes × Jv) fieldLt :=
          ⟨fun a b h1 h2 => absurd (keyLe_antisymm _ _ h1.1 h2.1) h1.2⟩
        have hfin : sortFields (canonFields ps) = sortFields (canonFields qs) :=
          List.eq_of_perm_of_sorted hpermS hstP hstQ
        show Jv.obj (sortFields (canonFields ps))
            = Jv.obj (sortFields (canonFields qs))
        rw [hfin]
      | null => exact Bool.noConfusion (show false = true from heq)
      | bool b => exact Bool.noConfusion (show false = true from heq)
      | num m e => exact Bool.noConfusion (show false = true from heq)
      | str s => exact Bool.noConfusion (show false = true from heq)
      | arr es => exact Bool.noConfusion (show false = true from heq)

/-! ### The parser produces well-formed values -/

theorem wfFields_of_values {fs : List (Bytes × Jv)}
    (h : ∀ kv ∈ fs, wf kv.2 = true) : wfFields fs = true := by
  induction fs with
  | nil => rfl
  | cons p rest ih =>
    cases p with
    | mk k v =>
      rw [wfFields, Bool.and_eq_true]
      exact ⟨h (k, v) (List.mem_cons_self _ _),
             ih fun kv hkv => h kv (List.mem_cons_of_mem _ hkv)⟩

theorem lookupLast_mem {k : Bytes} {w : Jv} :
    ∀ {fs : List (Bytes × Jv)}, lookupLast k fs = some w → ∃ k', (k', w) ∈ fs := by
  intro fs
  induction fs with
  | nil =>
    intro h
    exact Option.noConfusion h
  | cons p rest ih =>
    intro h
    rw [lookupLast] at h
    cases hrec : lookupLast k rest with
    | some w' =>
      rw [hrec] at h
      obtain rfl := Option.some.inj h
      obtain ⟨k', hk'⟩ := ih hrec
      exact ⟨k', List.mem_cons_of_mem _ hk'⟩
    | none =>
      rw [hrec] at h
      by_cases hk : (p.1 == k) = true
      · rw [if_pos hk] at h
        obtain rfl := Option.some.inj h
        exact ⟨p.1, by rw [Prod.mk.eta]; exact List.mem_cons_self _ _⟩
      · rw [if_neg hk] at h
        exact Option.noConfusion h

theorem dedupKeysF_mem : ∀ fuel fs kv, kv ∈ dedupKeysF fuel fs →
    (∃ v', (kv.1, v') ∈ fs) ∧ (∃ k', (k', kv.2) ∈ fs) := by
  intro fuel
  induction fuel with
  | zero =>
    intro fs kv h
    simp [dedupKeysF] at h
  | succ f ih =>
    intro fs kv h
    cases fs with
    | nil => simp [dedupKeysF] at h
    | cons p rest =>
      cases p with
      | mk k v =>
        rw [dedupKeysF] at h
        rcases List.mem_cons.mp h with rfl | htail
        · refine ⟨⟨v, List.mem_cons_self _ _⟩, ?_⟩
          cases hll : lookupLast k rest with
          | some w =>
            obtain ⟨k', hk'⟩ := lookupLast_mem hll
            exact ⟨k', List.mem_cons_of_mem _ hk'⟩
          | none => exact ⟨k, List.mem_cons_self _ _⟩
        · obtain ⟨⟨v', hv'⟩, ⟨k', hk'⟩⟩ := ih _ kv htail
          exact ⟨⟨v', List.mem_cons_of_mem _ (List.mem_filter.mp hv').1⟩,
                 ⟨k', List.mem_cons_of_mem _ (List.mem_filter.mp hk').1⟩⟩

theorem dedupKeysF_noDup : ∀ fuel fs, noDupKeys (dedupKeysF fuel fs) = true := by
  intro fuel
  induction fuel with
  | zero =>
    intro fs
    rfl
  | succ f ih =>
    intro fs
    cases fs with
    | nil => rfl
    | cons p rest =>
      cases p with
      | mk k v =>
        rw [dedupKeysF, noDupKeys, Bool.and_eq_true]
        refine ⟨?_, ih _⟩
        apply List.all_eq_true.mpr
        intro q hq
        obtain ⟨⟨v', hv'⟩, -⟩ :=
          dedupKeysF_mem f (rest.filter (fun p => !(p.1 == k))) q hq
        have := (List.mem_filter.mp hv').2
        simpa using this

theorem dedupKeys_wf {fs : List (Bytes × Jv)}
    (h : ∀ kv ∈ fs, wf kv.2 = true) : wf (.obj (dedupKeys fs)) = true := by
  rw [wf, Bool.and_eq_true]
  refine ⟨dedupKeysF_noDup _ _, wfFields_of_values ?_⟩
  intro kv hkv
  obtain ⟨-, ⟨k', hk'⟩⟩ := dedupKeysF_mem fs.length fs kv hkv
  exact h (k', kv.2) hk'

theorem mkNum_wf (neg : Bool) (m : Nat) (e : Int) : wf (mkNum neg m e) = true := by
  unfold mkNum
  split
  · rfl
  · rcases hst : stripTens m with ⟨m', k⟩
    rfl

theorem parseFracExp_wf {neg : Bool} {ip : Nat} {s : Bytes} {v : Jv} {r : Bytes}
    (h : parseFracExp neg ip s = some (v, r)) : wf v = true := by
  unfold parseFracExp at h
  split at h
  · exact Option.noConfusion h
  · split at h
    · exact Option.noConfusion h
    · simp only [Option.some.injEq, Prod.mk.injEq] at h
      rw [← h.1]
      exact mkNum_wf _ _ _

theorem parseNumber_wf {neg : Bool} {s : Bytes} {v : Jv} {r : Bytes}
    (h : parseNumber neg s = some (v, r)) : wf v = true := by
  unfold parseNumber at h
  split at h
  · split at h
    · split at h
      · exact Option.noConfusion h
      · exact parseFracExp_wf h
    · exact parseFracExp_wf h
  · split at h
    · rename_i c rest _ _
      rcases hdr : digitRun rest with ⟨ds, r'⟩
      rw [hdr] at h
      exact parseFracExp_wf h
    · exact Option.noConfusion h
  · exact Option.noConfusion h

theorem parse_wf : ∀ fuel,
    (∀ s v r, parseVal fuel s = some (v, r) → wf v = true) ∧
    (∀ s es r, parseElems fuel s = some (es, r) → wfList es = true) ∧
    (∀ s fs r, parseFields fuel s = some (fs, r) → wfFields fs = true) := by
  intro fuel
  induction fuel with
  | zero =>
    refine ⟨?_, ?_, ?_⟩ <;> intro s a r h <;> exact Option.noConfusion h
  | succ n ih =>
    obtain ⟨ihV, ihE, ihF⟩ := ih
    refine ⟨?_, ?_, ?_⟩
    · intro s v r h
      rw [parseVal] at h
      split at h
      · simp only [Option.some.injEq, Prod.mk.injEq] at h
        rw [← h.1]
        rfl
      · simp only [Option.some.injEq, Prod.mk.injEq] at h
        rw [← h.1]
        rfl
      · simp only [Option.some.injEq, Prod.mk.injEq] at h
        rw [← h.1]
        rfl
      · -- string
        rw [Option.map_eq_some'] at h
        obtain ⟨⟨t, r'⟩, -, hmk⟩ := h
        simp only [Prod.mk.injEq] at hmk
        rw [← hmk.1]
        rfl
      · -- array
        split at h
        · simp only [Option.some.injEq, Prod.mk.injEq] at h
          rw [← h.1]
          rfl
        · rw [Option.map_eq_some'] at h
          obtain ⟨⟨es, r''⟩, hpe, hmk⟩ := h
          simp only [Prod.mk.injEq] at hmk
          rw [← hmk.1]
          exact ihE _ _ _ hpe
      · -- object
        split at h
        · simp only [Option.some.injEq, Prod.mk.injEq] at h
          rw [← h.1]
          rfl
        · rw [Option.map_eq_some'] at h
          obtain ⟨⟨fs, r''⟩, hpf, hmk⟩ := h
          simp only [Prod.mk.injEq] at hmk
          rw [← hmk.1]
          exact dedupKeys_wf (wfFields_value (ihF _ _ _ hpf))
      · exact parseNumber_wf h
      · exact parseNumber_wf h
    · intro s es r h
      rw [parseElems] at h
      split at h
      · exact Option.noConfusion h
      · rename_i v r₁ hpv
        split at h
        · rw [Option.map_eq_some'] at h
          obtain ⟨⟨es', r₃⟩, hpe, hmk⟩ := h
          simp only [Prod.mk.injEq] at hmk
          rw [← hmk.1, wfList, Bool.and_eq_true]
          exact ⟨ihV _ _ _ hpv, ihE _ _ _ hpe⟩
        · simp only [Option.some.injEq, Prod.mk.injEq] at h
          rw [← h.1, wfList, Bool.and_eq_true]
          exact ⟨ihV _ _ _ hpv, rfl⟩
        · exact Option.noConfusion h
    · intro s fs r h
      rw [parseFields] at h
      split at h
      · split at h
        · exact Option.noConfusion h
        · rename_i k r₁ hps
          split at h
          · split at h
            · exact Option.noConfusion h
            · rename_i v r₃ hpv
              split at h
              · rw [Option.map_eq_some'] at h
                obtain ⟨⟨fs', r₅⟩, hpf, hmk⟩ := h
                simp only [Prod.mk.injEq] at hmk
                rw [← hmk.1, wfFields, Bool.and_eq_true]
                exact ⟨ihV _ _ _ hpv, ihF _ _ _ hpf⟩
              · simp only [Option.some.injEq, Prod.mk.injEq] at h
                rw [← h.1, wfFields, Bool.and_eq_true]
                exact ⟨ihV _ _ _ hpv, rfl⟩
              · exact Option.noConfusion h
          · exact Option.noConfusion h
      · exact Option.noConfusion h

/-- Every decoded document is well-formed: object keys are duplicate-free
at every nesting level. -/
theorem parseDocument_wf {b : Bytes} {v : Jv} (h : parseDocument b = some v) :
    wf v = true := by
  unfold parseDocument at h
  split at h
  · rename_i v' rest heqp
    split at h
    · obtain rfl := Option.some.inj h
      exact (parse_wf (b.length + 1)).1 _ _ _ heqp
    · exact Option.noConfusion h
  · exact Option.noConfusion h

/-- **C2 counterexample**: `"[1, 2]"` and `"[1,2]"` decode to the same
logical JSON value, yet — because hash.go's canonicalization fails on a
top-level array and the raw bytes are fingerprinted instead — their
fingerprints differ and storing one then the other creates two rows with
two identifiers, not one document. -/
theorem canonical_equivalence_counterexample :
    parseDocument [91, 49, 44, 32, 50, 93] = some (.arr [.num 1 0, .num 2 0]) ∧
    parseDocument [91, 49, 44, 50, 93] = some (.arr [.num 1 0, .num 2 0]) ∧
    calculateHash [91, 49, 44, 32, 50, 93] ≠ calculateHash [91, 49, 44, 50, 93] ∧
    ∃ d₁ st₁ d₂ st₂,
      pgStoreJSON emptySt 0 [91, 49, 44, 32, 50, 93] = (.ok d₁, st₁) ∧
      pgStoreJSON st₁ 0 [91, 49, 44, 50, 93] = (.ok d₂, st₂) ∧
      d₁.id ≠ d₂.id ∧ st₂.rows.length = 2 := by
  refine ⟨by rfl, by rfl, by decide, ?_⟩
  exact ⟨_, _, _, _, by rfl, by rfl, by decide, by rfl⟩

/-- **C2 amended**: canonical equivalence holds for payloads whose
top-level value is a JSON object: if both payloads decode to logically
equal objects (same key→value mapping regardless of field order or
whitespace), their fingerprints coincide and the second `StoreJSON`
resolves to the first's document — one row, same identifier.  (For
top-level arrays, strings, numbers and booleans, canonicalization fails
and raw bytes are hashed, so only byte-identical payloads deduplicate; see
the counterexample.) -/
theorem canonical_equivalence_objects (b₁ b₂ : Bytes)
    (fs₁ fs₂ : List (Bytes × Jv))
    (h₁ : parseDocument b₁ = some (.obj fs₁))
    (h₂ : parseDocument b₂ = some (.obj fs₂))
    (heq : jequivB (.obj fs₁) (.obj fs₂) = true) :
    calculateHash b₁ = calculateHash b₂ ∧
    ∀ st t₁ t₂, IdsBelow st →
      ∃ d st₁, pgStoreJSON st t₁ b₁ = (.ok d, st₁) ∧
               pgStoreJSON st₁ t₂ b₂ = (.ok d, st₁) := by
  have hc : canon (.obj fs₁) = canon (.obj fs₂) :=
    canon_eq_of_jequiv (sizeJv (.obj fs₁)) _ _ (Nat.le_refl _)
      (parseDocument_wf h₁) (parseDocument_wf h₂) heq
  have hm : marshal (.obj fs₁) = marshal (.obj fs₂) := by
    unfold marshal
    rw [hc]
  have hn₁ : NormalizeJSON b₁ = some (marshal (.obj fs₁)) := by
    unfold NormalizeJSON
    rw [h₁]
  have hn₂ : NormalizeJSON b₂ = some (marshal (.obj fs₂)) := by
    unfold NormalizeJSON
    rw [h₂]
  have hh : calculateHash b₁ = calculateHash b₂ := by
    unfold calculateHash
    rw [hn₁, hn₂]
    simp [hm]
  refine ⟨hh, ?_⟩
  intro st t₁ t₂ hids
  have hv₁ : jsonValid b₁ = true := by simp [jsonValid, h₁]
  have hv₂ : jsonValid b₂ = true := by simp [jsonValid, h₂]
  cases hfind : findByHash st (calculateHash b₁) with
  | some existing =>
    refine ⟨existing, st, by simp [pgStoreJSON, hv₁, hfind], ?_⟩
    have hfind' : findByHash st (calculateHash b₂) = some existing := by
      rw [← hh]
      exact hfind
    simp [pgStoreJSON, hv₂, hfind']
  | none =>
    refine ⟨freshDoc st t₁ b₁, insertDoc st (freshDoc st t₁ b₁),
      by simp [pgStoreJSON, hv₁, hfind], ?_⟩
    have hfind₂ : findByHash (insertDoc st (freshDoc st t₁ b₁)) (calculateHash b₂)
        = some (freshDoc st t₁ b₁) := by
      rw [← hh]
      unfold findByHash at hfind
      unfold findByHash insertDoc
      rw [findFirst_append_of_none _ _ _ hfind]
      simp [findFirst, freshDoc]
    simp [pgStoreJSON, hv₂, hfind₂]

theorem canonical_equivalence_objects_witness :
    parseDocument [123, 34, 97, 34, 58, 49, 44, 34, 98, 34, 58, 50, 125]
      = some (.obj [([97], .num 1 0), ([98], .num 2 0)]) ∧
    parseDocument [123, 34, 98, 34, 58, 50, 44, 32, 34, 97, 34, 58, 49, 125]
      = some (.obj [([98], .num 2 0), ([97], .num 1 0)]) ∧
    jequivB (.obj [([97], .num 1 0), ([98], .num 2 0)])
      (.obj [([98], .num 2 0), ([97], .num 1 0)]) = true ∧
    (calculateHash [123, 34, 97, 34, 58, 49, 44, 34, 98, 34, 58, 50, 125]
       = calculateHash [123, 34, 98, 34, 58, 50, 44, 32, 34, 97, 34, 58, 49, 125] ∧
     ∀ st t₁ t₂, IdsBelow st →
       ∃ d st₁,
         pgStoreJSON st t₁ [123, 34, 97, 34, 58, 49, 44, 34, 98, 34, 58, 50, 125]
           = (.ok d, st₁) ∧
         pgStoreJSON st₁ t₂ [123, 34, 98, 34, 58, 50, 44, 32, 34, 97, 34, 58, 49, 125]
           = (.ok d, st₁)) :=
  ⟨by rfl, by rfl, by rfl,
   canonical_equivalence_objects _ _ _ _ (by rfl) (by rfl) (by rfl)⟩

/-! ### Generic `Forall₂` tools for the parity proof -/

theorem forall₂_append {α β} {R : α → β → Prop} :
    ∀ {l₁ l₂ l₃ l₄ : List _}, List.Forall₂ R l₁ l₂ → List.Forall₂ R l₃ l₄ →
      List.Forall₂ R (l₁ ++ l₃) (l₂ ++ l₄) := by
  intro l₁ l₂ l₃ l₄ h₁ h₂
  induction h₁ with
  | nil => exact h₂
  | cons hab _ ih => exact List.Forall₂.cons hab ih

theorem forall₂_getElemQ {α β} {R : α → β → Prop} :
    ∀ {l₁ : List α} {l₂ : List β}, List.Forall₂ R l₁ l₂ → ∀ {i : Nat} {a b},
      l₁[i]? = some a → l₂[i]? = some b → R a b := by
  intro l₁ l₂ h
  induction h with
  | nil =>
    intro i a b ha _
    simp at ha
  | cons hab _ ih =>
    intro i a b ha hb
    cases i with
    | zero =>
      simp at ha hb
      rw [← ha, ← hb]
      exact hab
    | succ i' =>
      simp at ha hb
      exact ih ha hb

theorem forall₂_of_getElemQ {α β} {R : α → β → Prop} :
    ∀ (l₁ : List α) (l₂ : List β), l₁.length = l₂.length →
      (∀ (i : Nat) a b, l₁[i]? = some a → l₂[i]? = some b → R a b) →
      List.Forall₂ R l₁ l₂ := by
  intro l₁
  induction l₁ with
  | nil =>
    intro l₂ hlen _
    cases l₂ with
    | nil => exact List.Forall₂.nil
    | cons b u => simp at hlen
  | cons a t ih =>
    intro l₂ hlen hp
    cases l₂ with
    | nil => simp at hlen
    | cons b u =>
      refine List.Forall₂.cons (hp 0 a b (by simp) (by simp)) ?_
      refine ih u (by simpa using hlen) ?_
      intro i x y hx hy
      exact hp (i + 1) x y (by simpa using hx) (by simpa using hy)

theorem forall₂_map_eq {α β γ} {R : α → β → Prop} (f : α → γ) (g : β → γ)
    (hfg : ∀ a b, R a b → f a = g b) :
    ∀ {l₁ : List α} {l₂ : List β}, List.Forall₂ R l₁ l₂ →
      l₁.map f = l₂.map g := by
  intro l₁ l₂ h
  induction h with
  | nil => rfl
  | cons hab _ ih => simp [hfg _ _ hab, ih]

theorem forall₂_filter {α β} {R : α → β → Prop} (p : α → Bool) (q : β → Bool)
    (hdec : ∀ a b, R a b → p a = q b) :
    ∀ {l₁ : List α} {l₂ : List β}, List.Forall₂ R l₁ l₂ →
      List.Forall₂ R (l₁.filter p) (l₂.filter q) := by
  intro l₁ l₂ h
  induction h with
  | nil => exact List.Forall₂.nil
  | cons hab htail ih =>
    rename_i a b t u
    cases hpa : p a with
    | true =>
      have hqb : q b = true := hdec a b hab ▸ hpa
      rw [List.filter_cons_of_pos (by rw [hpa]), List.filter_cons_of_pos (by rw [hqb])]
      exact List.Forall₂.cons hab ih
    | false =>
      have hqb : q b = false := hdec a b hab ▸ hpa
      rw [List.filter_cons_of_neg (by rw [hpa]; simp),
          List.filter_cons_of_neg (by rw [hqb]; simp)]
      exact ih

theorem findFirst_rel {α β} {R : α → β → Prop} (p : α → Bool) (q : β → Bool)
    (hdec : ∀ a b, R a b → p a = q b) :
    ∀ {l₁ : List α} {l₂ : List β}, List.Forall₂ R l₁ l₂ →
      (findFirst p l₁ = none ∧ findFirst q l₂ = none) ∨
      (∃ a b, findFirst p l₁ = some a ∧ findFirst q l₂ = some b ∧ R a b) := by
  intro l₁ l₂ h
  induction h with
  | nil => exact Or.inl ⟨rfl, rfl⟩
  | cons hab htail ih =>
    rename_i a b t u
    cases hpa : p a with
    | true =>
      have hqb : q b = true := hdec a b hab ▸ hpa
      exact Or.inr ⟨a, b, by simp [findFirst, hpa], by simp [findFirst, hqb], hab⟩
    | false =>
      have hqb : q b = false := hdec a b hab ▸ hpa
      rcases ih with ⟨h1, h2⟩ | ⟨x, y, hx, hy, hxy⟩
      · exact Or.inl ⟨by simp [findFirst, hpa, h1], by simp [findFirst, hqb, h2]⟩
      · exact Or.inr ⟨x, y, by simp [findFirst, hpa, hx],
          by simp [findFirst, hqb, hy], hxy⟩

theorem findIdx_nodup_getElem {α γ} [BEq γ] [LawfulBEq γ] (f : α → γ) :
    ∀ (l : List α) (j : Nat) (d : α), (l.map f).Nodup → l[j]? = some d →
      l.findIdx (fun r => f r == f d) = j := by
  intro l
  induction l with
  | nil =>
    intro j d _ hd
    simp at hd
  | cons a t ih =>
    intro j d hnd hd
    simp only [List.map_cons, List.nodup_cons] at hnd
    cases j with
    | zero =>
      simp only [List.getElem?_cons_zero, Option.some.injEq] at hd
      subst hd
      rw [List.findIdx_cons]
      simp
    | succ j' =>
      simp only [List.getElem?_cons_succ] at hd
      have hmem : d ∈ t := mem_of_getElemQ t j' d hd
      have hne : (f a == f d) = false := by
        simp only [beq_eq_false_iff_ne, ne_eq]
        intro hcontra
        exact hnd.1 (hcontra ▸ List.mem_map_of_mem f hmem)
      rw [List.findIdx_cons, hne]
      simp only [cond_false]
      rw [ih j' d hnd.2 hd]

theorem findFirst_nodup_getElem {α γ} [BEq γ] [LawfulBEq γ] (f : α → γ) :
    ∀ (l : List α) (j : Nat) (d : α), (l.map f).Nodup → l[j]? = some d →
      findFirst (fun r => f r == f d) l = some d := by
  intro l
  induction l with
  | nil =>
    intro j d _ hd
    simp at hd
  | cons a t ih =>
    intro j d hnd hd
    simp only [List.map_cons, List.nodup_cons] at hnd
    cases j with
    | zero =>
      simp only [List.getElem?_cons_zero, Option.some.injEq] at hd
      subst hd
      simp [findFirst]
    | succ j' =>
      simp only [List.getElem?_cons_succ] at hd
      have hmem : d ∈ t := mem_of_getElemQ t j' d hd
      have hne : (f a == f d) = false := by
        simp only [beq_eq_false_iff_ne, ne_eq]
        intro hcontra
        exact hnd.1 (hcontra ▸ List.mem_map_of_mem f hmem)
      rw [findFirst, hne]
      simp only [Bool.false_eq_true, if_false]
      exact ih j' d hnd.2 hd

theorem findIdx_append_fresh {α} (p : α → Bool) :
    ∀ (l : List α) (d : α), (∀ a ∈ l, p a = false) → p d = true →
      (l ++ [d]).findIdx p = l.length := by
  intro l
  induction l with
  | nil =>
    intro d _ hd
    simp [List.findIdx_cons, hd]
  | cons a t ih =>
    intro d hall hd
    have ha : p a = false := hall a (List.mem_cons_self _ _)
    simp only [List.cons_append, List.findIdx_cons, ha, cond_false, List.length_cons]
    rw [ih d (fun x hx => hall x (List.mem_cons_of_mem _ hx)) hd]

/-! ### Store-level parity lemmas -/

theorem lt_length_of_getElemQ {α} {l : List α} {i : Nat} {a : α}
    (h : l[i]? = some a) : i < l.length := by
  by_contra hcon
  rw [List.getElem?_eq_none_iff.mpr (by omega)] at h
  cases h

theorem corr_rows {p q : St} (h : EngInv p q) :
    List.Forall₂ (Corr p q) p.rows q.rows := by
  obtain ⟨hrel, -, -⟩ := h
  refine forall₂_of_getElemQ _ _ hrel.length_eq ?_
  intro i a b ha hb
  exact ⟨forall₂_getElemQ hrel ha hb, i, ha, hb⟩

theorem obsDoc_corr {p q : St} (h : EngInv p q) {a b : Doc}
    (hc : Corr p q a b) : obsDoc p a = obsDoc q b := by
  obtain ⟨⟨hh, hjd, hsz, hm, hca, hu⟩, j, hja, hjb⟩ := hc
  obtain ⟨-, ⟨hndp, -⟩, ⟨hndq, -⟩⟩ := h
  have hip : obsIdx p a.id = j :=
    findIdx_nodup_getElem (fun r : Doc => r.id) p.rows j a hndp hja
  have hiq : obsIdx q b.id = j :=
    findIdx_nodup_getElem (fun r : Doc => r.id) q.rows j b hndq hjb
  simp only [obsDoc, ObsDoc.mk.injEq]
  exact ⟨by rw [hip, hiq], hh, hjd, hsz, hm, hca, hu⟩

theorem corr_hash_dec {p q : St} (hs : String) :
    ∀ a b : Doc, Corr p q a b → ((a.contentHash == hs) = (b.contentHash == hs)) := by
  intro a b hc
  rw [hc.1.1]

theorem findById_unassigned (st : St) (k : Nat)
    (hb : ∀ r ∈ st.rows, r.id < st.nextId) :
    findById st (st.nextId + k) = none := by
  apply findFirst_eq_none
  intro r hr
  simp only [beq_eq_false_iff_ne, ne_eq]
  have := hb r hr
  omega

theorem findById_insert_fresh (st : St) (now : Nat) (data : Bytes)
    (hb : ∀ r ∈ st.rows, r.id < st.nextId) :
    findById (insertDoc st (freshDoc st now data)) (freshDoc st now data).id
      = some (freshDoc st now data) := by
  unfold findById insertDoc
  have hnone : findFirst (fun r => r.id == (freshDoc st now data).id) st.rows
      = none := by
    apply findFirst_eq_none
    intro r hr
    simp only [freshDoc, beq_eq_false_iff_ne, ne_eq]
    exact Nat.ne_of_lt (hb r hr)
  rw [findFirst_append_of_none _ _ _ hnone]
  simp [findFirst]

theorem idsOk_insert (st : St) (now : Nat) (data : Bytes) (h : IdsOk st) :
    IdsOk (insertDoc st (freshDoc st now data)) := by
  obtain ⟨hnd, hb⟩ := h
  constructor
  · show ((st.rows ++ [freshDoc st now data]).map (fun r => r.id)).Nodup
    rw [List.map_append]
    refine List.Nodup.append hnd (by simp) ?_
    intro a ha ha'
    simp only [freshDoc, List.map_cons, List.map_nil, List.mem_singleton] at ha'
    obtain ⟨r, hr, rfl⟩ := List.mem_map.mp ha
    have := hb r hr
    omega
  · intro r hr
    rcases List.mem_append.mp hr with h1 | h1
    · exact Nat.lt_succ_of_lt (hb r h1)
    · simp only [List.mem_singleton] at h1
      subst h1
      show st.nextId < st.nextId + 1
      omega

theorem idsOk_bump {st : St} (h : IdsOk st) : IdsOk (bumpId st) := by
  obtain ⟨hnd, hb⟩ := h
  exact ⟨hnd, fun r hr => Nat.lt_succ_of_lt (hb r hr)⟩

theorem docEq_fresh (p q : St) (now : Nat) (data : Bytes) :
    DocEqNoId (freshDoc p now data) (freshDoc q now data) :=
  ⟨rfl, rfl, rfl, rfl, rfl, rfl⟩

theorem strel_insert {p q : St} (h : StRel p q) (now : Nat) (data : Bytes) :
    StRel (insertDoc p (freshDoc p now data)) (insertDoc q (freshDoc q now data)) :=
  forall₂_append h (List.Forall₂.cons (docEq_fresh p q now data) List.Forall₂.nil)

theorem engInv_insert {p q : St} (h : EngInv p q) (now : Nat) (data : Bytes) :
    EngInv (insertDoc p (freshDoc p now data)) (insertDoc q (freshDoc q now data)) :=
  ⟨strel_insert h.1 now data, idsOk_insert p now data h.2.1, idsOk_insert q now data h.2.2⟩

theorem corr_fresh {p q : St} (h : EngInv p q) (now : Nat) (data : Bytes) :
    Corr (insertDoc p (freshDoc p now data)) (insertDoc q (freshDoc q now data))
      (freshDoc p now data) (freshDoc q now data) := by
  refine ⟨docEq_fresh p q now data, p.rows.length, ?_, ?_⟩
  · exact List.getElem?_concat_length _ _
  · have hlen : p.rows.length = q.rows.length := h.1.length_eq
    rw [hlen]
    exact List.getElem?_concat_length _ _

theorem resolved_contains (st : St) (ks : List Nat) (h : IdsOk st)
    (j : Nat) (a : Doc) (ha : st.rows[j]? = some a) :
    ((ks.map (resolveId st)).contains a.id) = ks.contains j := by
  apply Bool.coe_iff_coe.mp
  constructor
  · intro hmem
    obtain ⟨k, hk, hres⟩ := List.mem_map.mp (List.mem_of_elem_eq_true hmem)
    unfold resolveId at hres
    cases hk' : st.rows[k]? with
    | some r =>
      rw [hk'] at hres
      have hres' : r.id = a.id := hres
      have h1 : (st.rows.map (fun r => r.id))[k]? = some a.id := by
        rw [List.getElem?_map, hk']
        simp [hres']
      have h2 : (st.rows.map (fun r => r.id))[j]? = some a.id := by
        rw [List.getElem?_map, ha]
        simp
      have hkj : k = j := by
        apply List.getElem?_inj ?_ h.1 (h1.trans h2.symm)
        simpa using lt_length_of_getElemQ hk'
      subst hkj
      exact List.elem_eq_true_of_mem hk
    | none =>
      rw [hk'] at hres
      have hres' : st.nextId + k = a.id := hres
      have hlt : a.id < st.nextId := h.2 a (mem_of_getElemQ _ _ _ ha)
      omega
  · intro hjk
    apply List.elem_eq_true_of_mem
    apply List.mem_map.mpr
    refine ⟨j, List.mem_of_elem_eq_true hjk, ?_⟩
    unfold resolveId
    rw [ha]

theorem insert_forall₂_created {R : Doc → Doc → Prop}
    (hc : ∀ a b, R a b → a.createdAt = b.createdAt) {d₁ d₂ : Doc} (hd : R d₁ d₂) :
    ∀ {l₁ l₂}, List.Forall₂ R l₁ l₂ →
      List.Forall₂ R (insertByCreatedDesc d₁ l₁) (insertByCreatedDesc d₂ l₂) := by
  intro l₁ l₂ h
  induction h with
  | nil => exact List.Forall₂.cons hd List.Forall₂.nil
  | cons hab htail ih =>
    rename_i a b t u
    by_cases hgt : d₁.createdAt > a.createdAt
    · have hgt' : d₂.createdAt > b.createdAt := by
        rw [← hc _ _ hd, ← hc _ _ hab]
        exact hgt
      simp only [insertByCreatedDesc, if_pos hgt, if_pos hgt']
      exact List.Forall₂.cons hd (List.Forall₂.cons hab htail)
    · have hgt' : ¬ d₂.createdAt > b.createdAt := by
        rw [← hc _ _ hd, ← hc _ _ hab]
        exact hgt
      simp only [insertByCreatedDesc, if_neg hgt, if_neg hgt']
      exact List.Forall₂.cons hab ih

theorem sort_forall₂_created {R : Doc → Doc → Prop}
    (hc : ∀ a b, R a b → a.createdAt = b.createdAt) :
    ∀ {l₁ l₂}, List.Forall₂ R l₁ l₂ →
      List.Forall₂ R (sortByCreatedDesc l₁) (sortByCreatedDesc l₂) := by
  intro l₁ l₂ h
  induction h with
  | nil => exact List.Forall₂.nil
  | cons hab _ ih => exact insert_forall₂_created hc hab ih

theorem storeOne_parity {p q : St} (h : EngInv p q) (now : Nat) (data : Bytes) :
    (∃ e, pgStoreJSON p now data = (.error e, p) ∧
          myStoreJSON q now data = (.error e, q)) ∨
    (∃ a b p' q', pgStoreJSON p now data = (.ok a, p') ∧
       myStoreJSON q now data = (.ok b, q') ∧ EngInv p' q' ∧ Corr p' q' a b) := by
  cases hv : jsonValid data with
  | false =>
    exact Or.inl ⟨.invalidDocument, by simp [pgStoreJSON, hv],
      by simp [myStoreJSON, hv]⟩
  | true =>
    rcases findFirst_rel (fun r : Doc => r.contentHash == calculateHash data)
        (fun r : Doc => r.contentHash == calculateHash data)
        (corr_hash_dec _) (corr_rows h) with ⟨hfp, hfq⟩ | ⟨a, b, hfp, hfq, hab⟩
    · have hfp' : findByHash p (calculateHash data) = none := hfp
      have hfq' : findByHash q (calculateHash data) = none := hfq
      refine Or.inr ⟨freshDoc p now data, freshDoc q now data,
        insertDoc p (freshDoc p now data), insertDoc q (freshDoc q now data),
        by simp [pgStoreJSON, hv, hfp'], ?_,
        engInv_insert h now data, corr_fresh h now data⟩
      simp [myStoreJSON, hv, hfq', findById_insert_fresh q now data h.2.2.2]
    · have hfp' : findByHash p (calculateHash data) = some a := hfp
      have hfq' : findByHash q (calculateHash data) = some b := hfq
      exact Or.inr ⟨a, b, p, q, by simp [pgStoreJSON, hv, hfp'],
        by simp [myStoreJSON, hv, hfq'], h, hab⟩

theorem getByHash_parity {p q : St} (h : EngInv p q) (hs : String) :
    (pgGetJSONByHash p hs = .error .notFound ∧
     myGetJSONByHash q hs = .error .notFound) ∨
    (∃ a b, pgGetJSONByHash p hs = .ok a ∧ myGetJSONByHash q hs = .ok b ∧
       Corr p q a b) := by
  rcases findFirst_rel (fun r : Doc => r.contentHash == hs)
      (fun r : Doc => r.contentHash == hs)
      (corr_hash_dec hs) (corr_rows h) with ⟨hfp, hfq⟩ | ⟨a, b, hfp, hfq, hab⟩
  · exact Or.inl ⟨by simp [pgGetJSONByHash, show findByHash p hs = none from hfp],
      by simp [myGetJSONByHash, show findByHash q hs = none from hfq]⟩
  · exact Or.inr ⟨a, b,
      by simp [pgGetJSONByHash, show findByHash p hs = some a from hfp],
      by simp [myGetJSONByHash, show findByHash q hs = some b from hfq], hab⟩

theorem getById_parity {p q : St} (h : EngInv p q) (k : Nat) :
    (pgGetJSONByID p (resolveId p k) = .error .notFound ∧
     myGetJSONByID q (resolveId q k) = .error .notFound) ∨
    (∃ a b, pgGetJSONByID p (resolveId p k) = .ok a ∧
            myGetJSONByID q (resolveId q k) = .ok b ∧ Corr p q a b) := by
  have hlen : p.rows.length = q.rows.length := h.1.length_eq
  cases hk : p.rows[k]? with
  | some a =>
    cases hk' : q.rows[k]? with
    | none =>
      have h1 := lt_length_of_getElemQ hk
      have h2 := List.getElem?_eq_none_iff.mp hk'
      omega
    | some b =>
      right
      have hres : resolveId p k = a.id := by
        unfold resolveId
        rw [hk]
      have hres' : resolveId q k = b.id := by
        unfold resolveId
        rw [hk']
      have hfa : findById p a.id = some a :=
        findFirst_nodup_getElem (fun r : Doc => r.id) p.rows k a h.2.1.1 hk
      have hfb : findById q b.id = some b :=
        findFirst_nodup_getElem (fun r : Doc => r.id) q.rows k b h.2.2.1 hk'
      exact ⟨a, b, by rw [hres]; simp [pgGetJSONByID, hfa],
        by rw [hres']; simp [myGetJSONByID, hfb],
        forall₂_getElemQ h.1 hk hk', k, hk, hk'⟩
  | none =>
    left
    have hklen : p.rows.length ≤ k := List.getElem?_eq_none_iff.mp hk
    have hk' : q.rows[k]? = none := List.getElem?_eq_none_iff.mpr (by omega)
    have hres : resolveId p k = p.nextId + k := by
      unfold resolveId
      rw [hk]
    have hres' : resolveId q k = q.nextId + k := by
      unfold resolveId
      rw [hk']
    exact ⟨by rw [hres]; simp [pgGetJSONByID, findById_unassigned p k h.2.1.2],
           by rw [hres']; simp [myGetJSONByID, findById_unassigned q k h.2.2.2]⟩

theorem getBatch_parity {p q : St} (h : EngInv p q) (ks : List Nat) :
    (∃ e, pgGetJSONBatch p (ks.map (resolveId p)) = .error e ∧
          myGetJSONBatch q (ks.map (resolveId q)) = .error e) ∨
    (∃ ds₁ ds₂, pgGetJSONBatch p (ks.map (resolveId p)) = .ok ds₁ ∧
       myGetJSONBatch q (ks.map (resolveId q)) = .ok ds₂ ∧
       List.Forall₂ (Corr p q) ds₁ ds₂) := by
  have hlen₁ : (ks.map (resolveId p)).length = ks.length := by simp
  have hlen₂ : (ks.map (resolveId q)).length = ks.length := by simp
  by_cases h0 : ks.length = 0
  · exact Or.inl ⟨.emptyBatch, by simp [pgGetJSONBatch, hlen₁, h0],
      by simp [myGetJSONBatch, hlen₂, h0]⟩
  by_cases h100 : ks.length > 100
  · exact Or.inl ⟨.batchTooLarge, by simp [pgGetJSONBatch, hlen₁, h0, h100],
      by simp [myGetJSONBatch, hlen₂, h0, h100]⟩
  · right
    have hdec : ∀ a b, Corr p q a b →
        ((ks.map (resolveId p)).contains a.id
          = (ks.map (resolveId q)).contains b.id) := by
      intro a b hc
      obtain ⟨hde, j, hja, hjb⟩ := hc
      rw [resolved_contains p ks h.2.1 j a hja, resolved_contains q ks h.2.2 j b hjb]
    have hfa := forall₂_filter _ _ hdec (corr_rows h)
    have hsorted := sort_forall₂_created (fun a b hc => hc.1.2.2.2.2.1) hfa
    refine ⟨_, _, ?_, ?_, hsorted⟩
    · simp [pgGetJSONBatch, hlen₁, h0, h100]
    · simp [myGetJSONBatch, hlen₂, h0, h100]

theorem stepOp_parity (op : Op) (hop : batchFree op = true) {p q : St}
    (h : EngInv p q) :
    (stepOp pgEngine p op).1 = (stepOp myEngine q op).1 ∧
    EngInv (stepOp pgEngine p op).2 (stepOp myEngine q op).2 := by
  cases op with
  | storeOne now data =>
    rcases storeOne_parity h now data with ⟨e, hp, hq⟩ |
      ⟨a, b, p', q', hp, hq, hinv, hc⟩
    · refine ⟨?_, ?_⟩ <;> simp [stepOp, pgEngine, myEngine, hp, hq]
      exact h
    · refine ⟨?_, ?_⟩ <;> simp [stepOp, pgEngine, myEngine, hp, hq]
      · exact obsDoc_corr hinv hc
      · exact hinv
  | storeBatch now items =>
    exact absurd hop (by simp [batchFree])
  | getById k =>
    rcases getById_parity h k with ⟨hp, hq⟩ | ⟨a, b, hp, hq, hc⟩
    · refine ⟨?_, ?_⟩ <;> simp [stepOp, pgEngine, myEngine, hp, hq]
      exact h
    · refine ⟨?_, ?_⟩ <;> simp [stepOp, pgEngine, myEngine, hp, hq]
      · exact obsDoc_corr h hc
      · exact h
  | getByHash hs =>
    rcases getByHash_parity h hs with ⟨hp, hq⟩ | ⟨a, b, hp, hq, hc⟩
    · refine ⟨?_, ?_⟩ <;> simp [stepOp, pgEngine, myEngine, hp, hq]
      exact h
    · refine ⟨?_, ?_⟩ <;> simp [stepOp, pgEngine, myEngine, hp, hq]
      · exact obsDoc_corr h hc
      · exact h
  | getBatch ks =>
    rcases getBatch_parity h ks with ⟨e, hp, hq⟩ | ⟨ds₁, ds₂, hp, hq, hfa⟩
    · refine ⟨?_, ?_⟩ <;> simp [stepOp, pgEngine, myEngine, hp, hq]
      exact h
    · refine ⟨?_, ?_⟩ <;> simp [stepOp, pgEngine, myEngine, hp, hq]
      · exact forall₂_map_eq _ _ (fun a b hc => obsDoc_corr h hc) hfa
      · exact h

theorem runOps_parity : ∀ (ops : List Op), (∀ op ∈ ops, batchFree op = true) →
    ∀ (p q : St), EngInv p q →
    runOps pgEngine ops p = runOps myEngine ops q := by
  intro ops
  induction ops with
  | nil =>
    intro _ p q _
    rfl
  | cons op rest ih =>
    intro hops p q h
    obtain ⟨hout, hinv⟩ := stepOp_parity op (hops op (by simp)) h
    simp only [runOps]
    rw [hout, ih (fun o ho => hops o (by simp [ho])) _ _ hinv]

/-- **C6** (counterexample): the original parity claim fails at
`StoreJSONBatch` applied to the single valid document `{}` from the empty
store.  The PostgreSQL variant returns the inserted document through the
in-transaction `INSERT ... RETURNING` (part_001:235), while the MySQL
variant's post-insert fetch (`s.GetJSONByID`, mysql.go:259) runs on a
pooled connection outside the still-open transaction, cannot see the
uncommitted row, and drops the item from the results — one returned
document against zero, a divergence no identifier renaming absorbs. -/
theorem backend_parity_counterexample :
    runOps pgEngine [.storeBatch 0 [[123, 125]]] emptySt ≠
    runOps myEngine [.storeBatch 0 [[123, 125]]] emptySt := by
  intro hcontra
  have hv : jsonValid [123, 125] = true := by decide
  simp [runOps, stepOp, pgEngine, myEngine, pgStoreJSONBatch, myStoreJSONBatch,
        pgStoreBatchGo, myStoreBatchGo, emptySt, findByHash, findById, findFirst,
        hv] at hcontra

/-- **C6** (amended): backend parity holds for every sequence of operations
of the shared contract avoiding `StoreJSONBatch` — `StoreJSON`,
`GetJSONByID`, `GetJSONByHash`, `GetJSONBatch` — applied to an initially
empty store: the PostgreSQL and MySQL engine models produce identical
externally observable results, the same success/error outcome and the same
returned document fields for every call, where the observation abstracts
exactly the freshly generated identifiers (documents are compared at their
creation index) and clock inputs are shared.  `StoreJSONBatch` itself
breaks parity (see the counterexample): its out-of-transaction fetches
drop every freshly inserted item from the MySQL results and abort the
PostgreSQL transaction on within-batch duplicates. -/
theorem backend_parity_without_batch (ops : List Op)
    (hops : ∀ op ∈ ops, batchFree op = true) :
    runOps pgEngine ops emptySt = runOps myEngine ops emptySt :=
  runOps_parity ops hops emptySt emptySt
    ⟨List.Forall₂.nil,
     ⟨by simp [emptySt], fun r hr => absurd hr (by simp [emptySt])⟩,
     ⟨by simp [emptySt], fun r hr => absurd hr (by simp [emptySt])⟩⟩

theorem backend_parity_without_batch_witness :
    runOps pgEngine
      [.storeOne 5 [123, 125], .getById 0, .getByHash "", .getBatch [0, 7]]
      emptySt
    = runOps myEngine
      [.storeOne 5 [123, 125], .getById 0, .getByHash "", .getBatch [0, 7]]
      emptySt :=
  backend_parity_without_batch _ (by decide)

end JsonStore
